import Mathlib

/-!
Verification development for the `mwmatching` maximum-weight-matching library
(`src/python/mwmatching/algorithm.py` and `src/python/mwmatching/datastruct.py`).

The Python sources are shallowly embedded as executable Lean definitions:

* Python `float` priorities that may take the value `math.inf` are modelled by
  the type `XQ` (a rational or positive infinity); ordinary numeric weights and
  dual variables are modelled by exact rationals `ℚ`.
* The indexed binary heap `PriorityQueue` is modelled by `PQ`, a list kept in
  exact binary-heap layout, with the same sift-up / sift-down routines.
  Python node handles are identified by the (unique) data value they carry.
* The 2-3 tree `ConcatenableQueue` is modelled by `CQTree` / `CQueue`.  The
  imperative bottom-up `_join_right` / `_join_left` / `_split_tree` walks that
  follow parent pointers are rendered as the equivalent structural recursions;
  the priority caches (`min_node`) are rendered as the leftmost-minimum
  computation that the cache maintains, and `first_node` split positions are
  rendered as recorded leaf counts of the merged sub-queues.
* Blossom objects are stored in an arena indexed by `ℕ` (ids `0 .. n-1` are
  the trivial blossoms); the shared mutable `tree_blossoms` sets are stored in
  a second arena and referenced by id.  Python `set` iteration is modelled as
  insertion order; CPython guarantees no iteration order for these id-hashed
  sets, so this is a determinization choice of the model (in the concrete
  runs below every iterated set is a singleton or empty, where the choice is
  immaterial).
* Python exceptions (`TypeError`, `ValueError`, `MatchingError`) are modelled
  by `Except PyError`; the exact message strings are not modelled.  Internal
  `assert` statements of the Python code (which can only fire on an internal
  bug) are not modelled; loops whose termination depends on algorithm
  invariants take an explicit fuel argument that is chosen from the complexity
  bounds stated in the source comments.
-/

/-! ### Extended rationals: Python floats including `math.inf` -/

/-- Rational numbers extended with positive infinity (`math.inf`).  Only the
operations actually used by the Python sources are provided. -/
inductive XQ where
  | fin (q : ℚ)
  | inf
deriving Repr, DecidableEq

/-- Boolean comparison `a <= b` on extended rationals. -/
def XQ.ble : XQ → XQ → Bool
  | _, .inf => true
  | .inf, .fin _ => false
  | .fin a, .fin b => decide (a ≤ b)

/-- Boolean comparison `a < b` on extended rationals. -/
def XQ.blt (a b : XQ) : Bool := !(XQ.ble b a)

/-- Extract the rational value of a finite extended rational (junk value `0`
for infinity; every use below is guarded so that the argument is finite). -/
def XQ.toQ : XQ → ℚ
  | .fin q => q
  | .inf => 0

/-- Add a rational to an extended rational (`inf + d = inf`). -/
def XQ.addQ : XQ → ℚ → XQ
  | .fin q, d => .fin (q + d)
  | .inf, _ => .inf

/-! ### PriorityQueue (datastruct.py, class PriorityQueue)

A conventional indexed binary min-heap.  The heap is a list of
`(prio, data)` entries in binary-heap layout; the `Node` handles of the
Python code are identified by their `data` value, which is unique within
each queue in every use made by the algorithm (edge index or blossom id). -/

/-- Binary min-heap with rational priorities and natural-number data,
mirroring `PriorityQueue`. -/
structure PQ where
  heap : List (ℚ × ℕ) := []
deriving Repr, DecidableEq

/-- Walk from position `pos` towards the root, moving parents down, and
finally place `node`; mirrors `PriorityQueue._sift_up`.  The extra `fuel`
argument makes the recursion structural; callers pass `pos + 1` or more,
which is enough since the position strictly decreases at each step. -/
def PQ.siftUpGo (heap : List (ℚ × ℕ)) (node : ℚ × ℕ) (pos : ℕ) : ℕ → List (ℚ × ℕ)
  | 0 => heap.set pos node
  | fuel + 1 =>
    if pos = 0 then heap.set pos node
    else
      let tpos := (pos - 1) / 2
      let tnode := heap.getD tpos (0, 0)
      if tnode.1 ≤ node.1 then heap.set pos node
      else PQ.siftUpGo (heap.set pos tnode) node tpos fuel

/-- Walk from position `pos` towards the leaves, moving the smaller child up,
and finally place `node`; mirrors `PriorityQueue._sift_down`.  The extra
`fuel` argument makes the recursion structural; callers pass
`heap.length + 1`, which is enough since the position strictly increases
while staying below the (unchanged) heap length. -/
def PQ.siftDownGo (heap : List (ℚ × ℕ)) (node : ℚ × ℕ) (pos : ℕ) : ℕ → List (ℚ × ℕ)
  | 0 => heap.set pos node
  | fuel + 1 =>
    if 2 * pos + 1 < heap.length then
      let tpos :=
        if 2 * pos + 2 < heap.length ∧
            (heap.getD (2 * pos + 2) (0, 0)).1 ≤ (heap.getD (2 * pos + 1) (0, 0)).1
        then 2 * pos + 2 else 2 * pos + 1
      let tnode := heap.getD tpos (0, 0)
      if tnode.1 ≥ node.1 then heap.set pos node
      else PQ.siftDownGo (heap.set pos tnode) node tpos fuel
    else heap.set pos node

/-- Mirrors `PriorityQueue.empty`. -/
def PQ.empty (pq : PQ) : Bool := pq.heap.isEmpty

/-- Mirrors `PriorityQueue.find_min` (junk `(0, 0)` on an empty queue, where
the Python code would raise `IndexError`; all uses are guarded). -/
def PQ.find_min (pq : PQ) : ℚ × ℕ := pq.heap.headD (0, 0)

/-- Mirrors `PriorityQueue.insert`. -/
def PQ.insert (pq : PQ) (prio : ℚ) (data : ℕ) : PQ :=
  let heap := pq.heap ++ [(prio, data)]
  ⟨PQ.siftUpGo heap (prio, data) (heap.length - 1) heap.length⟩

/-- Position of the entry carrying `key`, i.e. the `index` field of the
corresponding Python `Node` handle. -/
def PQ.indexOf (pq : PQ) (key : ℕ) : ℕ := pq.heap.findIdx (fun e => e.2 == key)

/-- Priority of the entry carrying `key` (the `prio` field of the handle). -/
def PQ.prioOf (pq : PQ) (key : ℕ) : ℚ :=
  ((pq.heap.find? (fun e => e.2 == key)).getD (0, 0)).1

/-- Mirrors `PriorityQueue.delete`. -/
def PQ.delete (pq : PQ) (key : ℕ) : PQ :=
  let index := pq.indexOf key
  let elemPrio := (pq.heap.getD index (0, 0)).1
  let node := pq.heap.getLastD (0, 0)
  let heap := pq.heap.dropLast
  if index < heap.length then
    let heap := heap.set index node
    if node.1 < elemPrio then ⟨PQ.siftUpGo heap node index (index + 1)⟩
    else if node.1 > elemPrio then ⟨PQ.siftDownGo heap node index (heap.length + 1)⟩
    else ⟨heap⟩
  else ⟨heap⟩

/-- Mirrors `PriorityQueue.decrease_prio`. -/
def PQ.decrease_prio (pq : PQ) (key : ℕ) (prio : ℚ) : PQ :=
  let index := pq.indexOf key
  ⟨PQ.siftUpGo (pq.heap.set index (prio, key)) (prio, key) index (index + 1)⟩

/-- Mirrors `PriorityQueue.increase_prio`. -/
def PQ.increase_prio (pq : PQ) (key : ℕ) (prio : ℚ) : PQ :=
  let index := pq.indexOf key
  ⟨PQ.siftDownGo (pq.heap.set index (prio, key)) (prio, key) index
    (pq.heap.length + 1)⟩

/-! ### ConcatenableQueue (datastruct.py, class ConcatenableQueue)

The 2-3 tree is an inductive type whose nodes store their height exactly as
the Python `BaseNode.height` field does.  Leaves carry the element and its
priority.  The cached `min_node` pointers are modelled by the function
`CQTree.minPair`, which computes the value the cache maintains: the leftmost
leaf of minimum priority (both `_repair_node` and `_new_internal_node` keep
the leftmost child on ties). -/

/-- Node of the 2-3 tree of a `ConcatenableQueue`. -/
inductive CQTree (α : Type) where
  | leaf (data : α) (prio : XQ)
  | node2 (h : ℕ) (c1 c2 : CQTree α)
  | node3 (h : ℕ) (c1 c2 c3 : CQTree α)
deriving Repr, DecidableEq

/-- Stored height of the root node (`BaseNode.height`). -/
def CQTree.height {α : Type} : CQTree α → ℕ
  | .leaf _ _ => 0
  | .node2 h _ _ => h
  | .node3 h _ _ _ => h

/-- Leaf sequence (element, priority) of the tree in left-to-right order. -/
def CQTree.leaves {α : Type} : CQTree α → List (α × XQ)
  | .leaf d p => [(d, p)]
  | .node2 _ a b => a.leaves ++ b.leaves
  | .node3 _ a b c => a.leaves ++ b.leaves ++ c.leaves

/-- Number of leaves of the tree. -/
def CQTree.leafCount {α : Type} (t : CQTree α) : ℕ := t.leaves.length

/-- Leftmost minimum-priority leaf; the value maintained by the `min_node`
caches of the Python implementation. -/
def CQTree.minPair {α : Type} : CQTree α → α × XQ
  | .leaf d p => (d, p)
  | .node2 _ a b =>
    let ma := a.minPair
    let mb := b.minPair
    if XQ.ble ma.2 mb.2 then ma else mb
  | .node3 _ a b c =>
    let ma := a.minPair
    let mb := b.minPair
    let mc := c.minPair
    let m1 := if XQ.ble ma.2 mb.2 then ma else mb
    if XQ.ble m1.2 mc.2 then m1 else mc

/-- Result of a one-sided join: either a tree of the same height as the
spine it was inserted into, or an overflow pair to be resolved by the caller
(the Python code resolves it by continuing its carry loop at the parent). -/
inductive JoinRes (α : Type) where
  | one (t : CQTree α)
  | two (t1 t2 : CQTree α)
deriving Repr, DecidableEq

/-- Leaves of a join result. -/
def JoinRes.leaves {α : Type} : JoinRes α → List (α × XQ)
  | .one t => t.leaves
  | .two t1 t2 => t1.leaves ++ t2.leaves

/-- Mirrors `ConcatenableQueue._join_right`: descend the right spine of `l`
to the node just above `r`, insert `r` there, and propagate 3-child
overflows upward as a carry pair.  The `leaf` case is unreachable in valid
use (the Python code only calls this with `l.height > r.height`). -/
def joinRight {α : Type} (l r : CQTree α) : JoinRes α :=
  match l with
  | .leaf d p => .one (.node2 (r.height + 1) (.leaf d p) r)
  | .node2 h a b =>
    if h == r.height + 1 then .one (.node3 h a b r)
    else
      match joinRight b r with
      | .one t => .one (.node2 h a t)
      | .two t1 t2 => .one (.node3 h a t1 t2)
  | .node3 h a b c =>
    if h == r.height + 1 then .two (.node2 h a b) (.node2 (c.height + 1) c r)
    else
      match joinRight c r with
      | .one t => .one (.node3 h a b t)
      | .two t1 t2 => .two (.node2 h a b) (.node2 (t1.height + 1) t1 t2)

/-- Mirrors `ConcatenableQueue._join_left` (symmetric to `joinRight`). -/
def joinLeft {α : Type} (l r : CQTree α) : JoinRes α :=
  match r with
  | .leaf d p => .one (.node2 (l.height + 1) l (.leaf d p))
  | .node2 h a b =>
    if h == l.height + 1 then .one (.node3 h l a b)
    else
      match joinLeft l a with
      | .one t => .one (.node2 h t b)
      | .two t1 t2 => .one (.node3 h t1 t2 b)
  | .node3 h a b c =>
    if h == l.height + 1 then .two (.node2 (l.height + 1) l a) (.node2 h b c)
    else
      match joinLeft l a with
      | .one t => .one (.node3 h t b c)
      | .two t1 t2 => .two (.node2 (t1.height + 1) t1 t2) (.node2 h b c)

/-- Combine an overflow pair into a new root node, as the Python code does
with `_new_internal_node` when its carry loop reaches the root. -/
def JoinRes.collapse {α : Type} : JoinRes α → CQTree α
  | .one t => t
  | .two t1 t2 => .node2 (t1.height + 1) t1 t2

/-- Mirrors `ConcatenableQueue._join`. -/
def CQTree.join {α : Type} (l r : CQTree α) : CQTree α :=
  if l.height > r.height then (joinRight l r).collapse
  else if l.height < r.height then (joinLeft l r).collapse
  else .node2 (l.height + 1) l r

/-- Mirrors `ConcatenableQueue._split_tree`.  The Python code splits at a
leaf object (`split_node`) reached through parent pointers; here the leaf is
designated by its index `i` in the left-to-right leaf order, and the
bottom-up carry walk is rendered as the equivalent top-down recursion.
Leaves strictly left of leaf `i` go to the first component (`none` when
empty), leaf `i` and everything right of it to the second. -/
def CQTree.splitTree {α : Type} : CQTree α → ℕ → Option (CQTree α) × CQTree α
  | .leaf d p, _ => (none, .leaf d p)
  | .node2 _ a b, i =>
    if i < a.leafCount then
      ((a.splitTree i).1, (a.splitTree i).2.join b)
    else
      match b.splitTree (i - a.leafCount) with
      | (none, r) => (some a, r)
      | (some l, r) => (some (a.join l), r)
  | .node3 h a b c, i =>
    if i < a.leafCount then
      ((a.splitTree i).1, (a.splitTree i).2.join (.node2 h b c))
    else if i < a.leafCount + b.leafCount then
      match b.splitTree (i - a.leafCount) with
      | (none, r) => (some a, r.join c)
      | (some l, r) => (some (a.join l), r.join c)
    else
      match c.splitTree (i - a.leafCount - b.leafCount) with
      | (none, r) => (some (.node2 h a b), r)
      | (some l, r) => (some ((CQTree.node2 h a b).join l), r)

/-- A concatenable queue: an optional 2-3 tree plus, after a `merge`, the
recorded leaf counts of the merged sub-queues (the information carried by
the retained `sub_queues` list and its `first_node` pointers). -/
structure CQueue (α : Type) where
  tree : Option (CQTree α) := none
  sub_sizes : List ℕ := []
deriving Repr, DecidableEq

/-- Mirrors the loop of `ConcatenableQueue.merge`: take the first tree and
join the remaining trees onto it from left to right. -/
def joinList {α : Type} : List (CQTree α) → Option (CQTree α)
  | [] => none
  | t :: ts => some (ts.foldl CQTree.join t)

/-- Mirrors `ConcatenableQueue.merge`: empty the sub-queues into a fresh
queue, retaining what is needed to split again.  Returns the filled queue
and the emptied sub-queues. -/
def CQueue.merge {α : Type} (qs : List (CQueue α)) : CQueue α × List (CQueue α) :=
  (⟨joinList (qs.filterMap (·.tree)),
    qs.map (fun q => (q.tree.map CQTree.leafCount).getD 0)⟩,
   qs.map (fun q => { q with tree := none }))

/-- Iterated splitting of `ConcatenableQueue.split`: working from the last
sub-queue back to the first (`sub_queues[:0:-1]`), split off the right part
belonging to each sub-queue.  `sizes` are the recorded leaf counts.  The
extra `fuel` argument makes the recursion structural; callers pass
`sizes.length`, which is enough since each step drops one size. -/
def splitGo {α : Type} : CQTree α → List ℕ → ℕ → List (CQTree α)
  | t, _, 0 => [t]
  | t, [], _ + 1 => [t]
  | t, [_], _ + 1 => [t]
  | t, s1 :: s2 :: rest, fuel + 1 =>
    match t.splitTree ((s1 :: s2 :: rest).dropLast.sum) with
    | (some l, r) => splitGo l ((s1 :: s2 :: rest).dropLast) fuel ++ [r]
    | (none, r) => [r]

/-- Mirrors `ConcatenableQueue.split`: undo the merge, returning the emptied
queue and the reconstructed sub-queue trees in their original order. -/
def CQueue.split {α : Type} (q : CQueue α) : CQueue α × List (CQTree α) :=
  match q.tree with
  | none => (⟨none, []⟩, [])
  | some t => (⟨none, []⟩, splitGo t q.sub_sizes q.sub_sizes.length)

/-! ### Lemmas about the concatenable queue -/

/-- Leaves of an optional tree. -/
def optLeaves {α : Type} : Option (CQTree α) → List (α × XQ)
  | none => []
  | some t => t.leaves

/-- Cutting a list into consecutive chunks whose lengths are given by
`sizes`, following the same last-to-first, fuel-driven recursion as
`splitGo`. -/
def chunksOf {β : Type} : List β → List ℕ → ℕ → List (List β)
  | xs, _, 0 => [xs]
  | xs, [], _ + 1 => [xs]
  | xs, [_], _ + 1 => [xs]
  | xs, s1 :: s2 :: rest, fuel + 1 =>
    chunksOf (xs.take ((s1 :: s2 :: rest).dropLast.sum)) ((s1 :: s2 :: rest).dropLast)
      fuel
      ++ [xs.drop ((s1 :: s2 :: rest).dropLast.sum)]

/-- Leaves stored in a queue. -/
def leavesOfQueue {α : Type} (q : CQueue α) : List (α × XQ) := optLeaves q.tree

/-- Round-trip property of `merge` followed by `split`: the merged queue
ends up empty and the reconstructed sub-queues hold exactly the elements
(with priorities) of the original sub-queues, in the same order. -/
def mergeSplitRoundTrip {α : Type} (qs : List (CQueue α)) : Prop :=
  ((CQueue.merge qs).1.split.1.tree = none
      ∧ (CQueue.merge qs).1.split.1.sub_sizes = [])
    ∧ (CQueue.merge qs).1.split.2.map CQTree.leaves = qs.map leavesOfQueue
    ∧ ∀ q ∈ (CQueue.merge qs).2, q.tree = none

/-! ### Input model and validation (algorithm.py, lines 188-277)

An input element of `maximum_weight_matching` is an arbitrary Python object.
`PyElem` models the distinctions that `_check_input_types` makes: whether
the element is a 3-tuple, and for each slot whether it is an `int`, a
`float` (finite with an exact rational value, or non-finite, i.e. an
infinity or NaN), or some other object.  Error messages are not modelled,
only the exception class. -/

/-- Python float: finite (with exact rational value) or non-finite. -/
inductive PyFloat where
  | finite (q : ℚ)
  | nonfinite
deriving Repr, DecidableEq

/-- Python value occupying one slot of an input tuple. -/
inductive PyVal where
  | vint (n : ℤ)
  | vfloat (f : PyFloat)
  | vother
deriving Repr, DecidableEq

/-- Python input element: a 3-tuple of values, or anything else
(non-tuple, or a tuple of a different arity). -/
inductive PyElem where
  | tup3 (x y w : PyVal)
  | notTup3
deriving Repr, DecidableEq

/-- Exception classes raised by the library. -/
inductive PyError where
  | typeErr
  | valueErr
  | matchingErr
deriving Repr, DecidableEq

/-- Exact value of `sys.float_info.max / 4`
(`sys.float_info.max = 2^1024 - 2^971`). -/
def float_limit : ℚ := (2 ^ 1024 - 2 ^ 971) / 4

/-- Checks applied to a single element by the loop body of
`_check_input_types`, in source order: shape, endpoint types, endpoint
signs, weight type, weight finiteness, weight magnitude. -/
def elemCheck : PyElem → Except PyError Unit
  | .notTup3 => .error .typeErr
  | .tup3 x y w =>
    match x, y with
    | .vint xi, .vint yi =>
      if xi < 0 ∨ yi < 0 then .error .valueErr
      else
        match w with
        | .vint _ => .ok ()
        | .vfloat .nonfinite => .error .valueErr
        | .vfloat (.finite q) =>
          if q > float_limit then .error .valueErr else .ok ()
        | .vother => .error .typeErr
    | _, _ => .error .typeErr

/-- Mirrors `_check_input_types`: scan the elements in order and raise at
the first violation.  (The leading `isinstance(edges, list)` check is
enforced by the Lean type of the argument.) -/
def _check_input_types : List PyElem → Except PyError Unit
  | [] => .ok ()
  | e :: rest => do
    elemCheck e
    _check_input_types rest

/-- An edge as used by the algorithm after input validation: vertex
indices, exact rational weight, and whether the Python weight was an `int`
(used by `GraphInfo.integer_weights`). -/
structure Edge where
  x : ℕ
  y : ℕ
  w : ℚ
  wInt : Bool
deriving Repr, DecidableEq

/-- Numeric value and `int`-ness of a weight slot (junk for non-numeric
slots, which `_check_input_types` rejects). -/
def pyWeight : PyVal → ℚ × Bool
  | .vint n => ((n : ℚ), true)
  | .vfloat (.finite q) => (q, false)
  | .vfloat .nonfinite => (0, false)
  | .vother => (0, false)

/-- Value-level reading of the validated input list (the identity in
Python, where the tuples are used as they are). -/
def toEdges (pel : List PyElem) : List Edge :=
  pel.filterMap fun e =>
    match e with
    | .tup3 (.vint xi) (.vint yi) w =>
      some ⟨xi.toNat, yi.toNat, (pyWeight w).1, (pyWeight w).2⟩
    | _ => none

/-- Normalized endpoint pair, as built by `_check_input_graph`:
`(x, y) if x < y else (y, x)`. -/
def normPair (e : Edge) : ℕ × ℕ := if e.x < e.y then (e.x, e.y) else (e.y, e.x)

/-- Lexicographic order on endpoint pairs, the order used by
`edge_endpoints.sort()`. -/
def pairLe (a b : ℕ × ℕ) : Bool := a.1 < b.1 || (a.1 == b.1 && a.2 ≤ b.2)

/-- `pairLe` as a proposition, for `List.insertionSort`. -/
@[reducible] def pairLeP (a b : ℕ × ℕ) : Prop := pairLe a b = true

instance : IsTotal (ℕ × ℕ) pairLeP :=
  ⟨fun a b => by
    simp only [pairLeP, pairLe, Bool.or_eq_true, decide_eq_true_eq,
      Bool.and_eq_true, beq_iff_eq]
    omega⟩

instance : IsTrans (ℕ × ℕ) pairLeP :=
  ⟨fun a b c hab hbc => by
    simp only [pairLeP, pairLe, Bool.or_eq_true, decide_eq_true_eq,
      Bool.and_eq_true, beq_iff_eq] at hab hbc ⊢
    omega⟩

/-- Sorting the endpoint pairs, modelling `edge_endpoints.sort()`.  Since
`pairLe` is a total order that is antisymmetric on the pair values, any
correct sort produces the same list, so insertion sort is used in place of
Python's Timsort. -/
def sortPairs (l : List (ℕ × ℕ)) : List (ℕ × ℕ) := l.insertionSort pairLeP

/-- Does the sorted list have two equal adjacent entries?  Mirrors the
duplicate-detection loop of `_check_input_graph`. -/
def adjacentEq : List (ℕ × ℕ) → Bool
  | [] => false
  | [_] => false
  | a :: b :: rest => a == b || adjacentEq (b :: rest)

/-- Mirrors `_check_input_graph`: reject self-edges, then sort the
normalized endpoint pairs and reject adjacent duplicates. -/
def _check_input_graph (edges : List Edge) : Except PyError Unit :=
  if edges.any (fun e => e.x == e.y) then .error .valueErr
  else
    if adjacentEq (sortPairs (edges.map normPair)) then .error .valueErr
    else .ok ()

/-- Mirrors `_remove_negative_weight_edges`. -/
def _remove_negative_weight_edges (edges : List Edge) : List Edge :=
  if edges.any (fun e => e.w < 0) then edges.filter (fun e => e.w ≥ 0) else edges

/-! ### adjust_weights_for_maximum_cardinality_matching (algorithm.py, 100-177) -/

/-- Minimum of a list of rationals (head-seeded fold; junk `0` on `[]`,
matching the fact that `min()` is only applied to non-empty lists). -/
def listMinQ : List ℚ → ℚ
  | [] => 0
  | w :: ws => ws.foldl min w

/-- Maximum of a list of rationals (head-seeded fold; junk `0` on `[]`). -/
def listMaxQ : List ℚ → ℚ
  | [] => 0
  | w :: ws => ws.foldl max w

/-- Mirrors `num_vertex = 1 + max(max(x, y) for (x, y, _w) in edges)`.
Folding from `0` agrees with the maximum of the non-empty generator
because vertex indices are natural numbers. -/
def num_vertex_of (edges : List Edge) : ℕ :=
  1 + (edges.map (fun e => max e.x e.y)).foldl max 0

/-- Common shift applied by the weight adjustment: add `delta` to the
weight; the result is a Python `int` only if both summands are. -/
def shiftEdge (delta : ℚ) (di : Bool) (e : Edge) : Edge :=
  { e with w := e.w + delta, wInt := e.wInt && di }

/-- Weight adjustment performed by
`adjust_weights_for_maximum_cardinality_matching` after its input check
(algorithm.py lines 151-177), written without the intermediate local
variables: `num_vertex_of edges` is `num_vertex`, `listMinQ/listMaxQ` of
the weights are `min_weight` / `max_weight`, and their difference is
`weight_range`. -/
def adjust_core (edges : List Edge) : List Edge :=
  if edges.isEmpty then edges
  else
    if listMinQ (edges.map (fun e => e.w)) > 0 ∧
        listMinQ (edges.map (fun e => e.w))
          ≥ (num_vertex_of edges : ℚ)
              * (listMaxQ (edges.map (fun e => e.w))
                 - listMinQ (edges.map (fun e => e.w))) then
      edges
    else
      edges.map
        (shiftEdge
          (if listMaxQ (edges.map (fun e => e.w))
              - listMinQ (edges.map (fun e => e.w)) > 0 then
            (num_vertex_of edges : ℚ)
                * (listMaxQ (edges.map (fun e => e.w))
                   - listMinQ (edges.map (fun e => e.w)))
              - listMinQ (edges.map (fun e => e.w))
          else 1 - listMinQ (edges.map (fun e => e.w)))
          (edges.all (fun e => e.wInt)))

/-- Mirrors `adjust_weights_for_maximum_cardinality_matching`: check the
input types, then apply the pure weight adjustment. -/
def adjust_weights_for_maximum_cardinality_matching
    (pel : List PyElem) : Except PyError (List Edge) := do
  _check_input_types pel
  pure (adjust_core (toEdges pel))

/-- Specification proved for claim C2: on type-correct input the weight
adjustment succeeds, returns the input itself when the edge list is empty,
and otherwise returns the edges with a common non-negative constant added
to every weight such that all adjusted weights are positive and the
minimum adjusted weight is at least `num_vertex` times the original weight
range. -/
def adjustRoundTrip (pel : List PyElem) : Prop :=
  ∃ out, adjust_weights_for_maximum_cardinality_matching pel = .ok out ∧
    (pel = [] → out = toEdges pel) ∧
    (toEdges pel ≠ [] →
      ∃ delta : ℚ, ∃ di : Bool, 0 ≤ delta ∧
        out = (toEdges pel).map (shiftEdge delta di) ∧
        (∀ e ∈ out, 0 < e.w) ∧
        (num_vertex_of (toEdges pel) : ℚ)
            * (listMaxQ ((toEdges pel).map (fun e => e.w))
                - listMinQ ((toEdges pel).map (fun e => e.w)))
          ≤ listMinQ (out.map (fun e => e.w)))

/-- Concrete input used by the C2 witness: two integer-weighted edges with
a negative minimum weight. -/
def pelC2 : List PyElem :=
  [.tup3 (.vint 0) (.vint 1) (.vint (-2)), .tup3 (.vint 1) (.vint 2) (.vint 3)]

/-! ### GraphInfo and the matching context (algorithm.py, classes GraphInfo,
Blossom, NonTrivialBlossom, MatchingContext)

Blossoms live in an arena `MC.blossoms`; ids `0 .. num_vertex-1` are the
trivial blossoms created at start-up, later ids are non-trivial blossoms
in order of creation.  A single record type covers both classes; the
`nontrivial` flag plays the role of `isinstance(b, NonTrivialBlossom)`.
The shared `tree_blossoms` set objects live in the arena `MC.tree_sets`
and are referenced by id; `is`-identity of Python set objects becomes id
equality, and set iteration — whose order CPython does not guarantee for
these id-hashed sets — is modelled as insertion order.  Each
blossom's `ConcatenableQueue` is its `vq_tree` (with `vq_subs` recording
the merged sub-queues and their sizes, standing for the retained
`sub_queues` list and its `first_node` pointers).  `PriorityQueue.Node`
handles (`delta2_node`, `delta3_node`, `delta4_node`,
`vertex_sedge_node`) become membership flags plus the key in the
respective queue. -/

instance : Inhabited Edge := ⟨⟨0, 0, 0, true⟩⟩

/-- Mirrors class `GraphInfo`. -/
structure GraphInfo where
  edges : List Edge
  num_vertex : ℕ
  adjacent_edges : List (List ℕ)
  integer_weights : Bool
deriving Repr, DecidableEq

/-- Adjacency lists: for each edge `e = (x, y, w)` append `e` to the lists
of `x` and `y`, in edge order. -/
def buildAdj (edges : List Edge) (n : ℕ) : List (List ℕ) :=
  (List.range edges.length).foldl
    (fun adj e =>
      let ed := edges.getD e default
      let adj := adj.set ed.x (adj.getD ed.x [] ++ [e])
      adj.set ed.y (adj.getD ed.y [] ++ [e]))
    (List.replicate n [])

/-- Mirrors `GraphInfo.__init__`. -/
def mkGraphInfo (edges : List Edge) : GraphInfo :=
  let num_vertex := if edges.isEmpty then 0 else num_vertex_of edges
  { edges := edges,
    num_vertex := num_vertex,
    adjacent_edges := buildAdj edges num_vertex,
    integer_weights := edges.all (fun e => e.wInt) }

/-- Arena entry for a blossom (fields of `Blossom` and
`NonTrivialBlossom`). -/
structure BlossomB where
  parent : Option ℕ := none
  base_vertex : ℕ := 0
  label : ℕ := 0
  tree_edge : Option (ℕ × ℕ) := none
  tree_set : Option ℕ := none
  vq_tree : Option (CQTree ℕ) := none
  vq_subs : List (ℕ × ℕ) := []
  delta2_node : Bool := false
  vertex_dual_offset : ℚ := 0
  marker : Bool := false
  nontrivial : Bool := false
  subblossoms : List ℕ := []
  blossom_edges : List (ℕ × ℕ) := []
  dual_var : ℚ := 0
  delta4_node : Bool := false
deriving Repr, DecidableEq

instance : Inhabited BlossomB := ⟨{}⟩

/-- Mirrors `MatchingContext`. -/
structure MC where
  graph : GraphInfo
  vertex_mate : List ℤ
  blossoms : List BlossomB
  nontrivial_blossom : List ℕ
  tree_sets : List (List ℕ)
  start_vertex_dual_2x : ℚ
  vertex_dual_2x : List ℚ
  delta_sum_2x : ℚ
  delta2_queue : PQ
  delta3_queue : PQ
  delta3_node : List Bool
  delta4_queue : PQ
  vertex_sedge_queue : List PQ
  vertex_sedge_node : List Bool
  scan_queue : List ℕ
deriving Repr, DecidableEq

/-- Read a blossom from the arena. -/
def MC.getB (st : MC) (b : ℕ) : BlossomB := st.blossoms.getD b {}

/-- Update a blossom in the arena. -/
def MC.updB (st : MC) (b : ℕ) (f : BlossomB → BlossomB) : MC :=
  { st with blossoms := st.blossoms.set b (f (st.getB b)) }

/-- Edge lookup. -/
def MC.edge (st : MC) (e : ℕ) : Edge := st.graph.edges.getD e default

/-- Walk `parent` pointers to the top-level blossom; mirrors
`top_level_blossom` (which reaches the same blossom through the owner of
the concatenable queue). -/
def topGo (bs : List BlossomB) (x : ℕ) : ℕ → ℕ
  | 0 => x
  | fuel + 1 =>
    match (bs.getD x default).parent with
    | none => x
    | some p => topGo bs p fuel

/-- Top-level blossom containing vertex `x`. -/
def MC.top_level_blossom (st : MC) (x : ℕ) : ℕ :=
  topGo st.blossoms x (st.blossoms.length + 1)

/-- Stack loop of `NonTrivialBlossom.vertices`. -/
def verticesGo (bs : List BlossomB) : ℕ → List ℕ → List ℕ → List ℕ
  | 0, _, acc => acc
  | fuel + 1, stack, acc =>
    match stack.getLast? with
    | none => acc
    | some b =>
      let stack := stack.dropLast
      let bb := bs.getD b default
      let pr := bb.subblossoms.foldl
        (fun (p : List ℕ × List ℕ) sub =>
          if (bs.getD sub default).nontrivial then (p.1 ++ [sub], p.2)
          else (p.1, p.2 ++ [(bs.getD sub default).base_vertex]))
        (stack, acc)
      verticesGo bs fuel pr.1 pr.2

/-- Mirrors `Blossom.vertices` / `NonTrivialBlossom.vertices`. -/
def MC.blossomVertices (st : MC) (b : ℕ) : List ℕ :=
  if (st.getB b).nontrivial then
    verticesGo st.blossoms (st.blossoms.length + 1) [b] []
  else [(st.getB b).base_vertex]

/-- Update the priority of the leaf holding `x`; the recomputation of the
minima is implicit in `CQTree.minPair` (mirrors `Node.set_prio`). -/
def CQTree.setPrio {α : Type} [DecidableEq α] : CQTree α → α → XQ → CQTree α
  | .leaf d p0, x, p => if d = x then .leaf d p else .leaf d p0
  | .node2 h a b, x, p => .node2 h (a.setPrio x p) (b.setPrio x p)
  | .node3 h a b c, x, p => .node3 h (a.setPrio x p) (b.setPrio x p) (c.setPrio x p)

/-- Find the priority of the leaf holding `x`. -/
def CQTree.findLeafPrio {α : Type} [DecidableEq α] : CQTree α → α → Option XQ
  | .leaf d p, x => if d = x then some p else none
  | .node2 _ a b, x => (a.findLeafPrio x).orElse (fun _ => b.findLeafPrio x)
  | .node3 _ a b c, x =>
    ((a.findLeafPrio x).orElse (fun _ => b.findLeafPrio x)).orElse
      (fun _ => c.findLeafPrio x)

/-- Mirrors `vertex_queue_node[x].set_prio(p)`. -/
def MC.vq_set_prio (st : MC) (x : ℕ) (p : XQ) : MC :=
  let b := st.top_level_blossom x
  match (st.getB b).vq_tree with
  | none => st
  | some t => st.updB b (fun bb => { bb with vq_tree := some (t.setPrio x p) })

/-- Mirrors reading `vertex_queue_node[x].prio`. -/
def MC.vq_leaf_prio (st : MC) (x : ℕ) : XQ :=
  let b := st.top_level_blossom x
  match (st.getB b).vq_tree with
  | none => .inf
  | some t => (t.findLeafPrio x).getD .inf

/-- Mirrors `ConcatenableQueue.min_prio` of a blossom's vertex queue. -/
def MC.vq_min_prio (st : MC) (b : ℕ) : XQ :=
  match (st.getB b).vq_tree with
  | none => .inf
  | some t => t.minPair.2

/-- Mirrors `ConcatenableQueue.min_elem` of a blossom's vertex queue. -/
def MC.vq_min_elem (st : MC) (b : ℕ) : ℕ :=
  match (st.getB b).vq_tree with
  | none => 0
  | some t => t.minPair.1

/-- Mirrors `edge_pseudo_slack_2x`. -/
def MC.edge_pseudo_slack_2x (st : MC) (e : ℕ) : ℚ :=
  let ed := st.edge e
  st.vertex_dual_2x.getD ed.x 0 + st.vertex_dual_2x.getD ed.y 0 - 2 * ed.w

/-! ### Delta2 / delta3 edge tracking (algorithm.py, lines 667-872) -/

/-- Mirrors `delta2_add_edge`. -/
def MC.delta2_add_edge (st : MC) (e y byB : ℕ) : MC :=
  let prio := st.edge_pseudo_slack_2x e
  let vsq := st.vertex_sedge_queue.getD y ⟨[]⟩
  let improved := vsq.empty || decide (vsq.find_min.1 > prio)
  let st := { st with
    vertex_sedge_node := st.vertex_sedge_node.set e true,
    vertex_sedge_queue := st.vertex_sedge_queue.set y (vsq.insert prio e) }
  if !improved then st
  else
    let st := st.vq_set_prio y (.fin prio)
    if (st.getB byB).label = 0 then
      let prio2 := prio + (st.getB byB).vertex_dual_offset
      if !(st.getB byB).delta2_node then
        { st.updB byB (fun bb => { bb with delta2_node := true }) with
          delta2_queue := st.delta2_queue.insert prio2 byB }
      else if prio2 < st.delta2_queue.prioOf byB then
        { st with delta2_queue := st.delta2_queue.decrease_prio byB prio2 }
      else st
    else st

/-- Mirrors `delta2_remove_edge`. -/
def MC.delta2_remove_edge (st : MC) (e y byB : ℕ) : MC :=
  if st.vertex_sedge_node.getD e false then
    let vsq := (st.vertex_sedge_queue.getD y ⟨[]⟩).delete e
    let st := { st with
      vertex_sedge_queue := st.vertex_sedge_queue.set y vsq,
      vertex_sedge_node := st.vertex_sedge_node.set e false }
    let prio : XQ := if vsq.empty then .inf else .fin vsq.find_min.1
    if XQ.blt (st.vq_leaf_prio y) prio then
      let st := st.vq_set_prio y prio
      if (st.getB byB).label = 0 then
        match st.vq_min_prio byB with
        | .fin p =>
          let p2 := p + (st.getB byB).vertex_dual_offset
          if st.delta2_queue.prioOf byB < p2 then
            { st with delta2_queue := st.delta2_queue.increase_prio byB p2 }
          else st
        | .inf =>
          { st.updB byB (fun bb => { bb with delta2_node := false }) with
            delta2_queue := st.delta2_queue.delete byB }
      else st
    else st
  else st

/-- Mirrors `delta2_enable_blossom`. -/
def MC.delta2_enable_blossom (st : MC) (b : ℕ) : MC :=
  match st.vq_min_prio b with
  | .fin p =>
    { st.updB b (fun bb => { bb with delta2_node := true }) with
      delta2_queue := st.delta2_queue.insert (p + (st.getB b).vertex_dual_offset) b }
  | .inf => st

/-- Mirrors `delta2_disable_blossom`. -/
def MC.delta2_disable_blossom (st : MC) (b : ℕ) : MC :=
  if (st.getB b).delta2_node then
    { st.updB b (fun bb => { bb with delta2_node := false }) with
      delta2_queue := st.delta2_queue.delete b }
  else st

/-- Mirrors `delta2_clear_vertex`. -/
def MC.delta2_clear_vertex (st : MC) (x : ℕ) : MC :=
  let st := { st with vertex_sedge_queue := st.vertex_sedge_queue.set x ⟨[]⟩ }
  let st := (st.graph.adjacent_edges.getD x []).foldl
    (fun s e => { s with vertex_sedge_node := s.vertex_sedge_node.set e false }) st
  st.vq_set_prio x .inf

/-- Mirrors `delta2_get_min_edge`. -/
def MC.delta2_get_min_edge (st : MC) : ℤ × XQ :=
  if st.delta2_queue.empty then (-1, .inf)
  else
    let node := st.delta2_queue.find_min
    let blossom := node.2
    let slack_2x := node.1 - st.delta_sum_2x
    let x := st.vq_min_elem blossom
    let e := (st.vertex_sedge_queue.getD x ⟨[]⟩).find_min.2
    ((e : ℤ), .fin slack_2x)

/-- Mirrors `delta3_add_edge` (for exact rational weights the integer and
floating point halvings of the even pseudo-slack coincide). -/
def MC.delta3_add_edge (st : MC) (e : ℕ) : MC :=
  if st.delta3_node.getD e false then st
  else
    let prio := st.edge_pseudo_slack_2x e / 2
    { st with delta3_node := st.delta3_node.set e true,
              delta3_queue := st.delta3_queue.insert prio e }

/-- Mirrors `delta3_remove_edge`. -/
def MC.delta3_remove_edge (st : MC) (e : ℕ) : MC :=
  if st.delta3_node.getD e false then
    { st with delta3_queue := st.delta3_queue.delete e,
              delta3_node := st.delta3_node.set e false }
  else st

/-- Loop of `delta3_get_min_edge`: pop stale intra-blossom edges until a
usable S-to-S edge surfaces. -/
def delta3GetMinGo (st : MC) : ℕ → (ℤ × XQ) × MC
  | 0 => ((-1, .inf), st)
  | fuel + 1 =>
    if st.delta3_queue.empty then ((-1, .inf), st)
    else
      let node := st.delta3_queue.find_min
      let e := node.2
      let ed := st.edge e
      let bx := st.top_level_blossom ed.x
      let byb := st.top_level_blossom ed.y
      if bx ≠ byb then (((e : ℤ), .fin (node.1 - st.delta_sum_2x)), st)
      else
        let st := { st with delta3_queue := st.delta3_queue.delete e,
                            delta3_node := st.delta3_node.set e false }
        delta3GetMinGo st fuel

/-- Mirrors `delta3_get_min_edge`. -/
def MC.delta3_get_min_edge (st : MC) : (ℤ × XQ) × MC :=
  delta3GetMinGo st (st.delta3_queue.heap.length + 1)

/-! ### Blossom labels (algorithm.py, lines 878-1100) -/

/-- Mirrors `assign_blossom_label_s`. -/
def MC.assign_blossom_label_s (st : MC) (b : ℕ) : MC :=
  let st := st.updB b (fun bb => { bb with label := 1 })
  let st := st.delta2_disable_blossom b
  let st :=
    if (st.getB b).nontrivial then
      st.updB b (fun bb => { bb with dual_var := bb.dual_var - st.delta_sum_2x })
    else st
  let fixup := st.delta_sum_2x + (st.getB b).vertex_dual_offset
  let st := st.updB b (fun bb => { bb with vertex_dual_offset := 0 })
  let vs := st.blossomVertices b
  let st := vs.foldl
    (fun s x =>
      let s := { s with vertex_dual_2x :=
        s.vertex_dual_2x.set x (s.vertex_dual_2x.getD x 0 + fixup) }
      s.delta2_clear_vertex x) st
  { st with scan_queue := st.scan_queue ++ vs }

/-- Mirrors `assign_blossom_label_t`. -/
def MC.assign_blossom_label_t (st : MC) (b : ℕ) : MC :=
  let st := st.updB b (fun bb => { bb with label := 2 })
  let st := st.delta2_disable_blossom b
  let st :=
    if (st.getB b).nontrivial then
      let st := st.updB b (fun bb => { bb with dual_var := bb.dual_var + st.delta_sum_2x })
      let st := { st with delta4_queue := st.delta4_queue.insert (st.getB b).dual_var b }
      st.updB b (fun bb => { bb with delta4_node := true })
    else st
  st.updB b (fun bb => { bb with vertex_dual_offset := bb.vertex_dual_offset - st.delta_sum_2x })

/-- Mirrors `remove_blossom_label_s`. -/
def MC.remove_blossom_label_s (st : MC) (b : ℕ) : MC :=
  let st := st.updB b (fun bb => { bb with label := 0 })
  let st :=
    if (st.getB b).nontrivial then
      st.updB b (fun bb => { bb with dual_var := bb.dual_var + st.delta_sum_2x })
    else st
  let fixup := -st.delta_sum_2x
  (st.blossomVertices b).foldl
    (fun s x =>
      let s := { s with vertex_dual_2x :=
        s.vertex_dual_2x.set x (s.vertex_dual_2x.getD x 0 + fixup) }
      (s.graph.adjacent_edges.getD x []).foldl
        (fun s2 e =>
          let ed := s2.edge e
          let y := if ed.x ≠ x then ed.x else ed.y
          let s2 := s2.delta3_remove_edge e
          let byb := s2.top_level_blossom y
          if (s2.getB byb).label = 1 then s2.delta2_add_edge e x b
          else s2.delta2_remove_edge e y byb) s) st

/-- Mirrors `remove_blossom_label_t`. -/
def MC.remove_blossom_label_t (st : MC) (b : ℕ) : MC :=
  let st := st.updB b (fun bb => { bb with label := 0 })
  let st :=
    if (st.getB b).nontrivial then
      let st := { st.updB b (fun bb => { bb with delta4_node := false }) with
                  delta4_queue := st.delta4_queue.delete b }
      st.updB b (fun bb => { bb with dual_var := bb.dual_var - st.delta_sum_2x })
    else st
  let st := st.updB b
    (fun bb => { bb with vertex_dual_offset := bb.vertex_dual_offset + st.delta_sum_2x })
  st.delta2_enable_blossom b

/-- Mirrors `change_s_blossom_to_subblossom`. -/
def MC.change_s_blossom_to_subblossom (st : MC) (b : ℕ) : MC :=
  let st := st.updB b (fun bb => { bb with label := 0 })
  if (st.getB b).nontrivial then
    st.updB b (fun bb => { bb with dual_var := bb.dual_var + st.delta_sum_2x })
  else st

/-- Mirrors `reset_blossom_label`. -/
def MC.reset_blossom_label (st : MC) (b : ℕ) : MC :=
  if (st.getB b).label = 1 then st.remove_blossom_label_s b
  else st.remove_blossom_label_t b

/-- Mirrors `remove_alternating_tree` (the `set` iteration, whose order
CPython does not guarantee, is modelled in insertion order). -/
def MC.remove_alternating_tree (st : MC) (ts : ℕ) : MC :=
  (st.tree_sets.getD ts []).foldl
    (fun s b =>
      let s := s.reset_blossom_label b
      s.updB b (fun bb => { bb with tree_edge := none, tree_set := none })) st

/-! ### Alternating paths and blossom formation (algorithm.py, 1102-1286) -/

/-- Mirrors the named tuple `AlternatingPath`. -/
structure AlternatingPath where
  edges : List (ℕ × ℕ)
  is_cycle : Bool
deriving Repr, DecidableEq

/-- Main loop of `trace_alternating_paths`.  `x`/`y` use `-1` as the
root-reached sentinel, exactly as the source does.  Returns the first
common ancestor (if any), the marked blossoms, both edge lists, and the
state (markers are blossom fields). -/
def traceGo (st : MC) : ℕ → ℤ → ℤ → List (ℕ × ℕ) → List (ℕ × ℕ) → List ℕ →
    (Option ℕ × List ℕ × List (ℕ × ℕ) × List (ℕ × ℕ)) × MC
  | 0, _, _, xedges, yedges, marked => ((none, marked, xedges, yedges), st)
  | fuel + 1, x, y, xedges, yedges, marked =>
    if x = -1 ∧ y = -1 then ((none, marked, xedges, yedges), st)
    else
      let bx := st.top_level_blossom x.toNat
      if (st.getB bx).marker then ((some bx, marked, xedges, yedges), st)
      else
        let st := st.updB bx (fun bb => { bb with marker := true })
        let marked := marked ++ [bx]
        let next :=
          match (st.getB bx).tree_edge with
          | none => ((-1 : ℤ), xedges)
          | some (u, v) => ((u : ℤ), xedges ++ [(u, v)])
        if y ≠ -1 then traceGo st fuel y next.1 yedges next.2 marked
        else traceGo st fuel next.1 y next.2 yedges marked

/-- Trim loop of `trace_alternating_paths`: pop `yedges` until its last
edge starts in the first common ancestor. -/
def trimGo (st : MC) (fcb : ℕ) : ℕ → List (ℕ × ℕ) → List (ℕ × ℕ)
  | 0, ys => ys
  | fuel + 1, ys =>
    match ys.getLast? with
    | none => ys
    | some (u, _) =>
      if st.top_level_blossom u = fcb then ys
      else trimGo st fcb fuel ys.dropLast

/-- Mirrors `trace_alternating_paths`. -/
def MC.trace_alternating_paths (st : MC) (x y : ℕ) : AlternatingPath × MC :=
  let res := traceGo st (2 * st.blossoms.length + 2) (x : ℤ) (y : ℤ)
      [(x, y)] [(y, x)] []
  let st := res.2
  let fc := res.1.1
  let marked := res.1.2.1
  let xedges := res.1.2.2.1
  let yedges := res.1.2.2.2
  let st := marked.foldl (fun s b => s.updB b (fun bb => { bb with marker := false })) st
  let yedges :=
    match fc with
    | none => yedges
    | some fcb => trimGo st fcb (yedges.length + 1) yedges
  let path_edges := xedges.reverse ++ (yedges.drop 1).map (fun p => (p.2, p.1))
  (⟨path_edges, fc.isSome⟩, st)

/-- Mirrors `make_blossom`. -/
def MC.make_blossom (st : MC) (path : AlternatingPath) : MC :=
  let subblossoms := path.edges.map (fun p => st.top_level_blossom p.1)
  let st := subblossoms.foldl
    (fun s sub =>
      let s :=
        if (s.getB sub).label = 2 then
          (s.remove_blossom_label_t sub).assign_blossom_label_s sub
        else s
      s.change_s_blossom_to_subblossom sub) st
  let newb := st.blossoms.length
  let sub0 := subblossoms.headD 0
  let newBlossom : BlossomB :=
    { base_vertex := (st.getB sub0).base_vertex,
      label := 1,
      dual_var := -st.delta_sum_2x,
      tree_edge := (st.getB sub0).tree_edge,
      tree_set := (st.getB sub0).tree_set,
      nontrivial := true,
      subblossoms := subblossoms,
      blossom_edges := path.edges,
      vq_tree := joinList (subblossoms.filterMap (fun s0 => (st.getB s0).vq_tree)),
      vq_subs := subblossoms.map
        (fun s0 => (s0, (((st.getB s0).vq_tree).map CQTree.leafCount).getD 0)) }
  let tsid := (st.getB sub0).tree_set
  let st := { st with blossoms := st.blossoms ++ [newBlossom],
                      nontrivial_blossom := st.nontrivial_blossom ++ [newb] }
  let st :=
    match tsid with
    | none => st
    | some ts =>
      { st with tree_sets := st.tree_sets.set ts ((st.tree_sets.getD ts []) ++ [newb]) }
  subblossoms.foldl
    (fun s sub =>
      let s := s.updB sub (fun bb =>
        { bb with parent := some newb, tree_edge := none, tree_set := none,
                  vq_tree := none, vq_subs := bb.vq_subs })
      match tsid with
      | none => s
      | some ts =>
        { s with tree_sets :=
            s.tree_sets.set ts ((s.tree_sets.getD ts []).filter (fun z => z != sub)) }) st

/-- Mirrors `find_path_through_blossom`. -/
def MC.find_path_through_blossom (st : MC) (b sub : ℕ) : List ℕ × List (ℕ × ℕ) :=
  let bb := st.getB b
  let p := bb.subblossoms.findIdx (fun z => z == sub)
  if p % 2 = 0 then
    ((bb.subblossoms.take (p + 1)).reverse,
     ((bb.blossom_edges.take p).reverse).map (fun q => (q.2, q.1)))
  else
    (bb.subblossoms.drop p ++ bb.subblossoms.take 1, bb.blossom_edges.drop p)

/-! ### Blossom expansion and tree extension (algorithm.py, 1288-1386,
1533-1595) -/

/-- Mirrors `expand_unlabeled_blossom`. -/
def MC.expand_unlabeled_blossom (st : MC) (b : ℕ) : MC :=
  let st := st.delta2_disable_blossom b
  let st :=
    match (st.getB b).vq_tree with
    | none => st
    | some t =>
      let subs : List (ℕ × ℕ) := (st.getB b).vq_subs
      let trees : List (CQTree ℕ) :=
        splitGo t (subs.map (fun (sp : ℕ × ℕ) => sp.2)) subs.length
      let st := (subs.zip trees).foldl
        (fun (s : MC) (pr : (ℕ × ℕ) × CQTree ℕ) =>
          s.updB pr.1.1 (fun bb => { bb with vq_tree := some pr.2 })) st
      st.updB b (fun bb => { bb with vq_tree := none, vq_subs := [] })
  let offset := (st.getB b).vertex_dual_offset
  let st := st.updB b (fun bb => { bb with vertex_dual_offset := 0 })
  let st := (st.getB b).subblossoms.foldl
    (fun (s : MC) (sub : ℕ) =>
      let s := s.updB sub (fun bb => { bb with parent := none, vertex_dual_offset := offset })
      s.delta2_enable_blossom sub) st
  { st with nontrivial_blossom := st.nontrivial_blossom.filter (fun z => z != b) }

/-- Mirrors `extend_tree_t_to_s`. -/
def MC.extend_tree_t_to_s (st : MC) (x : ℕ) : MC :=
  let bx := st.top_level_blossom x
  let st := st.assign_blossom_label_s bx
  let y := (st.vertex_mate.getD x (-1)).toNat
  let byb := st.top_level_blossom y
  let tsid := (st.getB byb).tree_set
  let st := st.updB bx (fun bb => { bb with tree_edge := some (y, x), tree_set := tsid })
  match tsid with
  | none => st
  | some ts =>
    { st with tree_sets := st.tree_sets.set ts ((st.tree_sets.getD ts []) ++ [bx]) }

/-- Zero-dual expansion loop at the head of `extend_tree_s_to_t`. -/
def expandZeroDualLoop (st : MC) (y : ℕ) : ℕ → MC
  | 0 => st
  | fuel + 1 =>
    let byb := st.top_level_blossom y
    if (st.getB byb).nontrivial ∧ (st.getB byb).dual_var = 0 then
      expandZeroDualLoop (st.expand_unlabeled_blossom byb) y fuel
    else st

/-- Mirrors `extend_tree_s_to_t`. -/
def MC.extend_tree_s_to_t (st : MC) (x y : ℕ) : MC :=
  let bx := st.top_level_blossom x
  let st := expandZeroDualLoop st y (st.blossoms.length + 1)
  let byb := st.top_level_blossom y
  let st := st.assign_blossom_label_t byb
  let tsid := (st.getB bx).tree_set
  let st := st.updB byb (fun bb => { bb with tree_edge := some (x, y), tree_set := tsid })
  let st :=
    match tsid with
    | none => st
    | some ts =>
      { st with tree_sets := st.tree_sets.set ts ((st.tree_sets.getD ts []) ++ [byb]) }
  let z := (st.vertex_mate.getD (st.getB byb).base_vertex (-1)).toNat
  st.extend_tree_t_to_s z

/-- Final relabeling loop of `expand_t_blossom`
(`for p in range(0, len(path_edges), 2)`). -/
def expandTLoop (st : MC) (tsid : Option ℕ) (path_nodes : List ℕ)
    (path_edges : List (ℕ × ℕ)) : ℕ → ℕ → MC
  | 0, _ => st
  | fuel + 1, p =>
    if p < path_edges.length then
      let yx := path_edges.getD p (0, 0)
      let st := st.extend_tree_t_to_s yx.2
      let sub := path_nodes.getD (p + 2) 0
      let st := st.assign_blossom_label_t sub
      let st := st.updB sub (fun bb =>
        { bb with tree_edge := some (path_edges.getD (p + 1) (0, 0)), tree_set := tsid })
      let st :=
        match tsid with
        | none => st
        | some ts =>
          { st with tree_sets := st.tree_sets.set ts ((st.tree_sets.getD ts []) ++ [sub]) }
      expandTLoop st tsid path_nodes path_edges fuel (p + 2)
    else st

/-- Mirrors `expand_t_blossom`. -/
def MC.expand_t_blossom (st : MC) (b : ℕ) : MC :=
  let tsid := (st.getB b).tree_set
  let st :=
    match tsid with
    | none => st
    | some ts =>
      { st with tree_sets :=
          st.tree_sets.set ts ((st.tree_sets.getD ts []).filter (fun z => z != b)) }
  let st := st.remove_blossom_label_t b
  let st := st.expand_unlabeled_blossom b
  match (st.getB b).tree_edge with
  | none => st
  | some xy =>
    let sub := st.top_level_blossom xy.2
    let st := st.assign_blossom_label_t sub
    let st := st.updB sub (fun bb => { bb with tree_edge := some xy, tree_set := tsid })
    let st :=
      match tsid with
      | none => st
      | some ts =>
        { st with tree_sets := st.tree_sets.set ts ((st.tree_sets.getD ts []) ++ [sub]) }
    let pe := st.find_path_through_blossom b sub
    expandTLoop st tsid pe.1 pe.2 (pe.2.length + 1) 0

/-! ### Augmenting (algorithm.py, 1392-1527) -/

/-- Mirrors `augment_blossom_rec`.  Stack entries are
`(blossom id, trivial blossom id)`; the trivial blossom of vertex `x` has
arena id `x`. -/
def MC.augment_blossom_rec (st : MC) (b sub : ℕ) (stack : List (ℕ × ℕ)) :
    MC × List (ℕ × ℕ) :=
  let pe := st.find_path_through_blossom b sub
  let path_nodes := pe.1
  let path_edges := pe.2
  let pr := (List.range ((path_edges.length + 1) / 2)).foldl
    (fun (pr : MC × List (ℕ × ℕ)) i =>
      let p := 2 * i
      let s := pr.1
      let xy := path_edges.getD (p + 1) (0, 0)
      let s := { s with vertex_mate :=
        (s.vertex_mate.set xy.1 (xy.2 : ℤ)).set xy.2 (xy.1 : ℤ) }
      let bx := path_nodes.getD (p + 1) 0
      let stk := if (s.getB bx).nontrivial then pr.2 ++ [(bx, xy.1)] else pr.2
      let byb := path_nodes.getD (p + 2) 0
      let stk := if (s.getB byb).nontrivial then stk ++ [(byb, xy.2)] else stk
      (s, stk)) (st, stack)
  let st := pr.1
  let p := (st.getB b).subblossoms.findIdx (fun z => z == sub)
  let st := st.updB b (fun bb =>
    { bb with subblossoms := bb.subblossoms.drop p ++ bb.subblossoms.take p,
              blossom_edges := bb.blossom_edges.drop p ++ bb.blossom_edges.take p,
              base_vertex := (st.getB sub).base_vertex })
  (st, pr.2)

/-- Stack loop of `augment_blossom`. -/
def augmentBlossomLoop (st : MC) : ℕ → List (ℕ × ℕ) → MC
  | 0, _ => st
  | fuel + 1, stack =>
    match stack.getLast? with
    | none => st
    | some os =>
      let stack := stack.dropLast
      let blossom := ((st.getB os.2).parent).getD 0
      let stack := if blossom ≠ os.1 then stack ++ [(os.1, blossom)] else stack
      let pr := st.augment_blossom_rec blossom os.2 stack
      augmentBlossomLoop pr.1 fuel pr.2

/-- Mirrors `augment_blossom`. -/
def MC.augment_blossom (st : MC) (b sub : ℕ) : MC :=
  augmentBlossomLoop st ((st.blossoms.length + 2) * (st.blossoms.length + 2)) [(b, sub)]

/-- Mirrors `augment_matching`. -/
def MC.augment_matching (st : MC) (path : AlternatingPath) : MC :=
  (List.range ((path.edges.length + 1) / 2)).foldl
    (fun (s : MC) i =>
      let xy := path.edges.getD (2 * i) (0, 0)
      let bx := s.top_level_blossom xy.1
      let s := if (s.getB bx).nontrivial then s.augment_blossom bx xy.1 else s
      let byb := s.top_level_blossom xy.2
      let s := if (s.getB byb).nontrivial then s.augment_blossom byb xy.2 else s
      { s with vertex_mate :=
        (s.vertex_mate.set xy.1 (xy.2 : ℤ)).set xy.2 (xy.1 : ℤ) }) st

/-! ### Substages and stages (algorithm.py, 1597-1895) -/

/-- Mirrors `add_s_to_s_edge` (set identity of `tree_blossoms` becomes id
equality of the tree-set arena references). -/
def MC.add_s_to_s_edge (st : MC) (x y : ℕ) : Bool × MC :=
  let bx := st.top_level_blossom x
  let byb := st.top_level_blossom y
  let pr := st.trace_alternating_paths x y
  let path := pr.1
  let st := pr.2
  if (st.getB bx).tree_set = (st.getB byb).tree_set then
    (false, st.make_blossom path)
  else
    let st :=
      match (st.getB bx).tree_set with
      | none => st
      | some ts => st.remove_alternating_tree ts
    let st :=
      match (st.getB byb).tree_set with
      | none => st
      | some ts => st.remove_alternating_tree ts
    (true, st.augment_matching path)

/-- Mirrors `scan_new_s_vertices`. -/
def MC.scan_new_s_vertices (st : MC) : MC :=
  let st := st.scan_queue.foldl
    (fun (s : MC) x =>
      let bx := s.top_level_blossom x
      (s.graph.adjacent_edges.getD x []).foldl
        (fun (s2 : MC) e =>
          let ed := s2.edge e
          let y := if ed.x ≠ x then ed.x else ed.y
          let byb := s2.top_level_blossom y
          if bx = byb then s2
          else if (s2.getB byb).label = 1 then s2.delta3_add_edge e
          else s2.delta2_add_edge e y byb) s) st
  { st with scan_queue := [] }

/-- Mirrors `calc_dual_delta_step`.  The four candidates are examined in
source order; the comparisons use `<=`, so a later candidate replaces an
earlier one that it ties with. -/
def MC.calc_dual_delta_step (st : MC) : (ℕ × XQ × ℤ × Option ℕ) × MC :=
  let delta_type := 1
  let delta_2x : XQ := .fin (st.start_vertex_dual_2x - st.delta_sum_2x)
  let delta_edge : ℤ := -1
  let d2 := st.delta2_get_min_edge
  let r2 :=
    if d2.1 ≠ -1 ∧ XQ.ble d2.2 delta_2x then (2, d2.2, d2.1)
    else (delta_type, delta_2x, delta_edge)
  let d3pr := st.delta3_get_min_edge
  let d3 := d3pr.1
  let st := d3pr.2
  let r3 :=
    if d3.1 ≠ -1 ∧ XQ.ble d3.2 r2.2.1 then (3, d3.2, d3.1)
    else r2
  let r4 :=
    if !st.delta4_queue.empty then
      let blossom := st.delta4_queue.find_min.2
      let blossom_dual := (st.getB blossom).dual_var - st.delta_sum_2x
      if XQ.ble (.fin blossom_dual) r3.2.1 then
        (4, XQ.fin blossom_dual, r3.2.2, some blossom)
      else (r3.1, r3.2.1, r3.2.2, (none : Option ℕ))
    else (r3.1, r3.2.1, r3.2.2, (none : Option ℕ))
  (r4, st)

/-- Mirrors `MatchingContext.start`. -/
def MC.start (st : MC) : MC :=
  (List.range st.graph.num_vertex).foldl
    (fun (s : MC) x =>
      let bx := s.top_level_blossom x
      let s := s.assign_blossom_label_s bx
      let s := s.updB bx (fun bb =>
        { bb with tree_edge := none, tree_set := some s.tree_sets.length })
      { s with tree_sets := s.tree_sets ++ [[bx]] }) st

/-- One iteration of the substage loop inside `run_stage`: scan newly
labeled S-vertices, compute and apply the delta step, and perform the
action selected by the delta type.  Returns `some b` when `run_stage`
returns `b`, and `none` when the loop continues. -/
def MC.substage (st : MC) : Option Bool × MC :=
  let st := st.scan_new_s_vertices
  let cpr := st.calc_dual_delta_step
  let delta_type := cpr.1.1
  let delta_2x := cpr.1.2.1
  let delta_edge := cpr.1.2.2.1
  let delta_blossom := cpr.1.2.2.2
  let st := cpr.2
  let st := { st with delta_sum_2x := st.delta_sum_2x + delta_2x.toQ }
  if delta_type = 2 then
    let ed := st.edge delta_edge.toNat
    let xy :=
      if (st.getB (st.top_level_blossom ed.x)).label ≠ 1 then (ed.y, ed.x)
      else (ed.x, ed.y)
    (none, st.extend_tree_s_to_t xy.1 xy.2)
  else if delta_type = 3 then
    let ed := st.edge delta_edge.toNat
    let pr := st.add_s_to_s_edge ed.x ed.y
    if pr.1 then (some true, pr.2) else (none, pr.2)
  else if delta_type = 4 then
    (none, st.expand_t_blossom (delta_blossom.getD 0))
  else
    (some false, st)

/-- Mirrors `run_stage` (the `while True` substage loop, with fuel). -/
def run_stage : ℕ → MC → Bool × MC
  | 0, st => (false, st)
  | fuel + 1, st =>
    match st.substage with
    | (some b, st) => (b, st)
    | (none, st) => run_stage fuel st

/-- The stage loop `while ctx.run_stage(): pass` of
`maximum_weight_matching` (with fuel; the source notes it runs at most
`n/2 + 1` iterations). -/
def runStages : ℕ → ℕ → MC → MC
  | 0, _, st => st
  | fuel + 1, sfuel, st =>
    match run_stage sfuel st with
    | (true, st) => runStages fuel sfuel st
    | (false, st) => st

/-- Mirrors `cleanup` (`itertools.chain(trivial, nontrivial)` becomes the
trivial ids `0 .. n-1` followed by the nontrivial ids in creation order). -/
def MC.cleanup (st : MC) : MC :=
  ((List.range st.graph.num_vertex) ++ st.nontrivial_blossom).foldl
    (fun (s : MC) b =>
      let s :=
        if (s.getB b).parent = none ∧ (s.getB b).label ≠ 0 then
          s.reset_blossom_label b
        else s
      let s := s.updB b (fun bb => { bb with tree_edge := none, tree_set := none })
      let s :=
        if (s.getB b).vertex_dual_offset ≠ 0 then
          (s.blossomVertices b).foldl
            (fun (s2 : MC) x =>
              let newDual := s2.vertex_dual_2x.getD x 0 + (s.getB b).vertex_dual_offset
              { s2 with vertex_dual_2x := s2.vertex_dual_2x.set x newDual }) s
        else s
      s.updB b (fun bb => { bb with vertex_dual_offset := 0 })) st

/-- Mirrors `MatchingContext.__init__`. -/
def mkContext (graph : GraphInfo) : MC :=
  { graph := graph,
    vertex_mate := List.replicate graph.num_vertex (-1),
    blossoms := (List.range graph.num_vertex).map
      (fun x => { base_vertex := x, vq_tree := some (.leaf x .inf) }),
    nontrivial_blossom := [],
    tree_sets := [],
    start_vertex_dual_2x := listMaxQ (graph.edges.map (fun e => e.w)),
    vertex_dual_2x := List.replicate graph.num_vertex
      (listMaxQ (graph.edges.map (fun e => e.w))),
    delta_sum_2x := 0,
    delta2_queue := ⟨[]⟩,
    delta3_queue := ⟨[]⟩,
    delta3_node := List.replicate graph.edges.length false,
    delta4_queue := ⟨[]⟩,
    vertex_sedge_queue := List.replicate graph.num_vertex ⟨[]⟩,
    vertex_sedge_node := List.replicate graph.edges.length false,
    scan_queue := [] }

/-! ### Verification of the optimum (algorithm.py, 1898-2106) -/

/-- Stack loop of `_verify_blossom_edges`.  Stack entries pair a blossom
id with the sub-blossom cursor `p` (`-1` right after entering). -/
def verifyBlossomGo (st : MC) : ℕ → List (ℕ × ℤ) → List ℕ → List ℚ → List ℕ →
    List ℚ → Except PyError (List ℚ)
  | 0, _, _, _, _, slack => .ok slack
  | fuel + 1, stack, vertex_depth, path_sum_dual, path_num_matched, slack =>
    match stack.getLast? with
    | none => .ok slack
    | some bp =>
      let b := bp.1
      let depth := stack.length
      let bb := st.getB b
      let entering := bp.2 = -1
      let p := if entering then 0 else bp.2.toNat
      let vertex_depth :=
        if entering then
          (st.blossomVertices b).foldl (fun vd x => vd.set x depth) vertex_depth
        else vertex_depth
      let path_sum_dual :=
        if entering then path_sum_dual ++ [(path_sum_dual.getLastD 0) + bb.dual_var]
        else path_sum_dual
      let path_num_matched :=
        if entering then path_num_matched ++ [0] else path_num_matched
      if p < bb.subblossoms.length then
        let stack := stack.dropLast ++ [(b, (p : ℤ) + 1)]
        let sub := bb.subblossoms.getD p 0
        if (st.getB sub).nontrivial then
          verifyBlossomGo st fuel (stack ++ [(sub, -1)]) vertex_depth
            path_sum_dual path_num_matched slack
        else
          let base := (st.getB sub).base_vertex
          let pr := (st.graph.adjacent_edges.getD base []).foldl
            (fun (pr : List ℚ × List ℕ) e =>
              let ed := st.edge e
              if ed.x = base then
                let edge_depth := vertex_depth.getD ed.y 0
                if edge_depth > 0 then
                  let sl := pr.1.set e
                    (pr.1.getD e 0 + 2 * (path_sum_dual.getD edge_depth 0))
                  let pnm :=
                    if st.vertex_mate.getD ed.x (-2) = (ed.y : ℤ) then
                      pr.2.set edge_depth (pr.2.getD edge_depth 0 + 1)
                    else pr.2
                  (sl, pnm)
                else pr
              else pr) (slack, path_num_matched)
          verifyBlossomGo st fuel stack vertex_depth path_sum_dual pr.2 pr.1
      else
        let bvs := st.blossomVertices b
        let blossom_num_matched := path_num_matched.getD depth 0
        if bvs.length ≠ 2 * blossom_num_matched + 1 then .error .matchingErr
        else
          let path_num_matched := path_num_matched.set (depth - 1)
            (path_num_matched.getD (depth - 1) 0 + blossom_num_matched)
          let vertex_depth := bvs.foldl (fun vd x => vd.set x (depth - 1)) vertex_depth
          verifyBlossomGo st fuel stack.dropLast vertex_depth
            path_sum_dual.dropLast path_num_matched.dropLast slack

/-- Mirrors `verify_optimum`. -/
def MC.verify_optimum (st : MC) : Except PyError Unit := do
  let num_vertex := st.graph.num_vertex
  let num_matched_vertex ← (List.range num_vertex).foldlM
    (fun (acc : ℕ) x => do
      let y := st.vertex_mate.getD x (-1)
      if y ≠ -1 then
        if st.vertex_mate.getD y.toNat (-1) ≠ (x : ℤ) then
          throw PyError.matchingErr
        else pure (acc + 1)
      else pure acc) 0
  let num_matched_edge :=
    (st.graph.edges.filter (fun ed => st.vertex_mate.getD ed.x (-2) == (ed.y : ℤ))).length
  if num_matched_vertex ≠ 2 * num_matched_edge then throw PyError.matchingErr
  if (List.range num_vertex).any (fun x => decide (st.vertex_dual_2x.getD x 0 < 0)) then
    throw PyError.matchingErr
  if st.nontrivial_blossom.any (fun b => decide ((st.getB b).dual_var < 0)) then
    throw PyError.matchingErr
  if (List.range num_vertex).any (fun x =>
      st.vertex_mate.getD x (-1) == -1 && !(st.vertex_dual_2x.getD x 0 == 0)) then
    throw PyError.matchingErr
  let slack0 : List ℚ := st.graph.edges.map (fun ed =>
    st.vertex_dual_2x.getD ed.x 0 + st.vertex_dual_2x.getD ed.y 0 - 2 * ed.w)
  let slack ← st.nontrivial_blossom.foldlM
    (fun (sl : List ℚ) b =>
      if (st.getB b).parent = none then
        verifyBlossomGo st ((st.blossoms.length + 2) * (st.blossoms.length + 2))
          [(b, -1)] (List.replicate num_vertex 0) [0] [0] sl
      else pure sl) slack0
  if slack.any (fun s => decide (s < 0)) then throw PyError.matchingErr
  if (List.range st.graph.edges.length).any (fun e =>
      let ed := st.edge e
      st.vertex_mate.getD ed.x (-2) == (ed.y : ℤ) && !(slack.getD e 0 == 0)) then
    throw PyError.matchingErr
  pure ()

/-! ### Top-level entry point (algorithm.py, lines 16-97) -/

/-- Mirrors `maximum_weight_matching`: validate the input, drop
negative-weight edges, run stages until no augmenting path remains,
extract the matched pairs, and (for all-integer weights) verify the
optimum.  The fuels are taken from the complexity bounds stated in the
source: at most `n/2 + 1` stages, each with `O(n)` substages. -/
def maximum_weight_matching (pel : List PyElem) : Except PyError (List (ℕ × ℕ)) := do
  _check_input_types pel
  let edges0 := toEdges pel
  _check_input_graph edges0
  let edges := _remove_negative_weight_edges edges0
  if edges.isEmpty then pure []
  else
    let graph : GraphInfo := mkGraphInfo edges
    let ctx := (mkContext graph).start
    let ctx := runStages (graph.num_vertex / 2 + 2)
      (4 * (graph.num_vertex + graph.edges.length + 2)) ctx
    let ctx := ctx.cleanup
    let pairs := edges.filterMap (fun ed =>
      if ctx.vertex_mate.getD ed.x (-2) = (ed.y : ℤ) then some (ed.x, ed.y) else none)
    if graph.integer_weights then do
      ctx.verify_optimum
      pure pairs
    else pure pairs

/-! ### Delta-step candidates and tie-breaking (claim C3) -/

/-- The delta candidates examined by `calc_dual_delta_step`, paired with
their delta type: the delta1 value always; the delta2 edge and the delta3
edge when one was found (`e != -1`); the delta4 blossom when the queue is
non-empty.  The delta3 and delta4 candidates are read off the state left
by `delta3_get_min_edge`, exactly as the source does. -/
def MC.deltaCandidates (st : MC) : List (ℕ × XQ) :=
  let d1 : XQ := .fin (st.start_vertex_dual_2x - st.delta_sum_2x)
  let d2 := st.delta2_get_min_edge
  let d3pr := st.delta3_get_min_edge
  let d3 := d3pr.1
  let st3 := d3pr.2
  (1, d1)
    :: ((if d2.1 ≠ -1 then [(2, d2.2)] else [])
      ++ (if d3.1 ≠ -1 then [(3, d3.2)] else [])
      ++ (if !st3.delta4_queue.empty then
            [(4, XQ.fin ((st3.getB st3.delta4_queue.find_min.2).dual_var
                - st3.delta_sum_2x))]
          else []))

/-- Specification-side selection rule (amended wording): among the
candidates, take the smallest delta value; when several candidates attain
it, take the one with the largest delta type, i.e. the latest evaluated
(junk `(0, inf)` on the empty list, which never occurs). -/
def pickLastMin : List (ℕ × XQ) → ℕ × XQ
  | [] => (0, .inf)
  | c :: rest => rest.foldl (fun acc c2 => if XQ.ble c2.2 acc.2 then c2 else acc) c

/-- Integer-weight input list builder for concrete test graphs. -/
def mkIntPel (l : List (ℕ × ℕ × ℤ)) : List PyElem :=
  l.map (fun e => PyElem.tup3 (PyVal.vint e.1) (PyVal.vint e.2.1) (PyVal.vint e.2.2))

/-- Path of four vertices whose three edges all have weight 2. -/
def pelC3 : List PyElem := mkIntPel [(0,1,2),(1,2,2),(2,3,2)]

/-- Iterate the substage body, discarding the stop flag. -/
def substIter : ℕ → MC → MC
  | 0, st => st
  | k + 1, st => substIter k (st.substage).2

/-- The matching context reached on `pelC3` after `start`, one substage and
the scan of the following substage — the precise point where
`calc_dual_delta_step` is called next. -/
def ctxC3 : MC :=
  (substIter 1
    ((mkContext (mkGraphInfo (_remove_negative_weight_edges (toEdges pelC3)))).start)
   ).scan_new_s_vertices

/-- Per-element error classification following the spec's wording for a
single element, in the source's check order: wrong shape (TypeError),
non-integer endpoint (TypeError), negative endpoint (ValueError),
non-numeric weight (TypeError), non-finite weight (ValueError),
over-limit weight (ValueError). -/
def elemErrSpec : PyElem → Option PyError
  | .notTup3 => some .typeErr
  | .tup3 x y w =>
    match x, y with
    | .vint xi, .vint yi =>
      if xi < 0 ∨ yi < 0 then some .valueErr
      else
        match w with
        | .vint _ => none
        | .vfloat .nonfinite => some .valueErr
        | .vfloat (.finite q) => if q > float_limit then some .valueErr else none
        | .vother => some .typeErr
    | _, _ => some .typeErr

/-- Specification-side first input error (amended wording): the first
failing check of the first offending element, scanning left to right;
if all elements pass, a self-edge and then a duplicate undirected edge
report ValueError; otherwise no input error. -/
def firstInputError (pel : List PyElem) : Option PyError :=
  match pel.findSome? elemErrSpec with
  | some e => some e
  | none =>
    if (toEdges pel).any (fun ed => ed.x == ed.y) then some .valueErr
    else if ¬((toEdges pel).map normPair).Nodup then some .valueErr
    else none

/-- An input whose first element carries a non-finite weight and whose
second element is not a 3-tuple. -/
def pelC6 : List PyElem :=
  [PyElem.tup3 (.vint 0) (.vint 1) (.vfloat .nonfinite), PyElem.notTup3]

/-- A single self-edge, rejected by `_check_input_graph`. -/
def pelC6w : List PyElem := mkIntPel [(0,0,1)]

/-- A single edge of weight `-1`. -/
def pelC7 : List PyElem := mkIntPel [(0,1,-1)]

/-- A single edge of weight `0`. -/
def pelC10 : List PyElem := mkIntPel [(0,1,0)]

/-! ### Concrete witness queues (claim C5) -/

/-- Two non-empty concatenable queues: a singleton and a two-element
2-3 tree. -/
def qsC5 : List (CQueue ℕ) :=
  [⟨some (CQTree.leaf 0 (XQ.fin 1)), []⟩,
   ⟨some (CQTree.node2 1 (CQTree.leaf 1 (XQ.fin 2)) (CQTree.leaf 2 (XQ.fin 0))), []⟩]

/-- Every 2-3 tree has at least one leaf. -/
theorem CQTree.leaves_ne_nil {α : Type} (t : CQTree α) : t.leaves ≠ [] := by
  induction t with
  | leaf d p => simp [CQTree.leaves]
  | node2 h a b iha ihb => simp [CQTree.leaves, iha]
  | node3 h a b c iha ihb ihc => simp [CQTree.leaves, iha]

/-- `joinRight` concatenates leaf sequences. -/
theorem joinRight_leaves {α : Type} (l r : CQTree α) :
    (joinRight l r).leaves = l.leaves ++ r.leaves := by
  induction l with
  | leaf d p => simp [joinRight, JoinRes.leaves, CQTree.leaves]
  | node2 h a b iha ihb =>
    rw [joinRight]
    split
    · simp [JoinRes.leaves, CQTree.leaves]
    · rcases hj : joinRight b r with t | ⟨t1, t2⟩ <;>
        · rw [hj] at ihb
          simp only [JoinRes.leaves] at ihb
          simp [JoinRes.leaves, CQTree.leaves, ihb]
  | node3 h a b c iha ihb ihc =>
    rw [joinRight]
    split
    · simp [JoinRes.leaves, CQTree.leaves]
    · rcases hj : joinRight c r with t | ⟨t1, t2⟩ <;>
        · rw [hj] at ihc
          simp only [JoinRes.leaves] at ihc
          simp [JoinRes.leaves, CQTree.leaves, ihc]

/-- `joinLeft` concatenates leaf sequences. -/
theorem joinLeft_leaves {α : Type} (l r : CQTree α) :
    (joinLeft l r).leaves = l.leaves ++ r.leaves := by
  induction r with
  | leaf d p => simp [joinLeft, JoinRes.leaves, CQTree.leaves]
  | node2 h a b iha ihb =>
    rw [joinLeft]
    split
    · simp [JoinRes.leaves, CQTree.leaves]
    · rcases hj : joinLeft l a with t | ⟨t1, t2⟩ <;>
        · rw [hj] at iha
          simp only [JoinRes.leaves] at iha
          simp [JoinRes.leaves, CQTree.leaves, iha]
  | node3 h a b c iha ihb ihc =>
    rw [joinLeft]
    split
    · simp [JoinRes.leaves, CQTree.leaves]
    · rcases hj : joinLeft l a with t | ⟨t1, t2⟩ <;>
        · rw [hj] at iha
          simp only [JoinRes.leaves] at iha
          simp [JoinRes.leaves, CQTree.leaves, iha]

/-- `join` concatenates leaf sequences. -/
theorem CQTree.join_leaves {α : Type} (l r : CQTree α) :
    (l.join r).leaves = l.leaves ++ r.leaves := by
  rw [CQTree.join]
  split
  · have := joinRight_leaves l r
    rcases hj : joinRight l r with t | ⟨t1, t2⟩ <;>
      simp_all [JoinRes.leaves, JoinRes.collapse, CQTree.leaves]
  · split
    · have := joinLeft_leaves l r
      rcases hj : joinLeft l r with t | ⟨t1, t2⟩ <;>
        simp_all [JoinRes.leaves, JoinRes.collapse, CQTree.leaves]
    · simp [JoinRes.collapse, CQTree.leaves]

/-- `splitTree` splits the leaf sequence at the designated position. -/
theorem CQTree.splitTree_leaves {α : Type} (t : CQTree α) (i : ℕ)
    (hi : i < t.leafCount) :
    optLeaves (t.splitTree i).1 = t.leaves.take i ∧
      (t.splitTree i).2.leaves = t.leaves.drop i := by
  induction t generalizing i with
  | leaf d p =>
    simp [CQTree.leafCount, CQTree.leaves] at hi
    subst hi
    simp [CQTree.splitTree, optLeaves, CQTree.leaves]
  | node2 h a b iha ihb =>
    have hl2 : (CQTree.node2 h a b).leaves = a.leaves ++ b.leaves := rfl
    have hcnt : (CQTree.node2 h a b).leafCount = a.leaves.length + b.leaves.length := by
      simp [CQTree.leafCount, hl2]
    rw [CQTree.splitTree]
    by_cases hca : i < a.leafCount
    · rw [if_pos hca]
      obtain ⟨h1, h2⟩ := iha i hca
      have hz : i - a.leaves.length = 0 := by
        simp only [CQTree.leafCount] at hca; omega
      refine ⟨?_, ?_⟩
      · show optLeaves (a.splitTree i).1 = _
        rw [h1, hl2, List.take_append_eq_append_take, hz]
        simp
      · show ((a.splitTree i).2.join b).leaves = _
        rw [CQTree.join_leaves, h2, hl2, List.drop_append_eq_append_drop, hz]
        simp
    · rw [if_neg hca]
      have hca2 : a.leaves.length ≤ i := le_of_not_lt hca
      have hib : i - a.leafCount < b.leafCount := by
        rw [hcnt] at hi
        simp only [CQTree.leafCount] at hca ⊢
        omega
      obtain ⟨h1, h2⟩ := ihb (i - a.leafCount) hib
      rcases hs : b.splitTree (i - a.leafCount) with ⟨l, r⟩
      rw [hs] at h1 h2
      have htk : (CQTree.node2 h a b).leaves.take i
          = a.leaves ++ b.leaves.take (i - a.leafCount) := by
        simp only [hl2, List.take_append_eq_append_take, CQTree.leafCount]
        rw [List.take_of_length_le hca2]
      have hdr : (CQTree.node2 h a b).leaves.drop i
          = b.leaves.drop (i - a.leafCount) := by
        simp only [hl2, List.drop_append_eq_append_drop, CQTree.leafCount]
        rw [List.drop_eq_nil_of_le hca2]
        simp
      rcases l with _ | l
      · refine ⟨?_, ?_⟩
        · show a.leaves = _
          replace h1 : ([] : List (α × XQ)) = b.leaves.take (i - a.leafCount) := h1
          rw [htk, ← h1, List.append_nil]
        · show r.leaves = _
          rw [hdr]; exact h2
      · refine ⟨?_, ?_⟩
        · show (a.join l).leaves = _
          replace h1 : l.leaves = b.leaves.take (i - a.leafCount) := h1
          rw [CQTree.join_leaves, htk, h1]
        · show r.leaves = _
          rw [hdr]; exact h2
  | node3 h a b c iha ihb ihc =>
    have hl3 : (CQTree.node3 h a b c).leaves = a.leaves ++ b.leaves ++ c.leaves := rfl
    have hitot : i < a.leaves.length + b.leaves.length + c.leaves.length := by
      have hx := hi
      simp only [CQTree.leafCount, hl3, List.length_append] at hx
      omega
    rw [CQTree.splitTree]
    by_cases hca : i < a.leafCount
    · rw [if_pos hca]
      obtain ⟨h1, h2⟩ := iha i hca
      have hca3 : i < a.leaves.length := hca
      refine ⟨?_, ?_⟩
      · show optLeaves (a.splitTree i).1 = _
        rw [h1, hl3]
        rw [List.take_append_eq_append_take, List.take_append_eq_append_take]
        simp only [List.length_append]
        rw [show i - a.leaves.length = 0 by omega]
        rw [show i - (a.leaves.length + b.leaves.length) = 0 by omega]
        simp
      · show ((a.splitTree i).2.join (.node2 h b c)).leaves = _
        rw [CQTree.join_leaves, h2, hl3]
        rw [List.drop_append_eq_append_drop, List.drop_append_eq_append_drop]
        simp only [List.length_append]
        rw [show i - a.leaves.length = 0 by omega]
        rw [show i - (a.leaves.length + b.leaves.length) = 0 by omega]
        simp [CQTree.leaves, List.append_assoc]
    · rw [if_neg hca]
      have hca2 : a.leaves.length ≤ i := le_of_not_lt hca
      by_cases hcb : i < a.leafCount + b.leafCount
      · rw [if_pos hcb]
        have hcb3 : i < a.leaves.length + b.leaves.length := hcb
        have hib : i - a.leafCount < b.leafCount := by
          show i - a.leaves.length < b.leaves.length
          omega
        obtain ⟨h1, h2⟩ := ihb (i - a.leafCount) hib
        rcases hs : b.splitTree (i - a.leafCount) with ⟨l, r⟩
        rw [hs] at h1 h2
        replace h1 : optLeaves l = b.leaves.take (i - a.leaves.length) := h1
        replace h2 : r.leaves = b.leaves.drop (i - a.leaves.length) := h2
        have htk : (CQTree.node3 h a b c).leaves.take i
            = a.leaves ++ b.leaves.take (i - a.leaves.length) := by
          rw [hl3, List.take_append_eq_append_take, List.take_append_eq_append_take]
          rw [List.take_of_length_le hca2]
          simp only [List.length_append]
          rw [show i - (a.leaves.length + b.leaves.length) = 0 by omega]
          simp
        have hdr : (CQTree.node3 h a b c).leaves.drop i
            = b.leaves.drop (i - a.leaves.length) ++ c.leaves := by
          rw [hl3, List.drop_append_eq_append_drop, List.drop_append_eq_append_drop]
          rw [List.drop_eq_nil_of_le hca2]
          simp only [List.length_append]
          rw [show i - (a.leaves.length + b.leaves.length) = 0 by omega]
          simp
        rcases l with _ | l
        · refine ⟨?_, ?_⟩
          · show a.leaves = _
            replace h1 : ([] : List (α × XQ)) = b.leaves.take (i - a.leaves.length) := h1
            rw [htk, ← h1, List.append_nil]
          · show (r.join c).leaves = _
            rw [CQTree.join_leaves, hdr, h2]
        · refine ⟨?_, ?_⟩
          · show (a.join l).leaves = _
            replace h1 : l.leaves = b.leaves.take (i - a.leaves.length) := h1
            rw [CQTree.join_leaves, htk, h1]
          · show (r.join c).leaves = _
            rw [CQTree.join_leaves, hdr, h2]
      · rw [if_neg hcb]
        have hcb2 : a.leaves.length + b.leaves.length ≤ i := by
          have hx := le_of_not_lt hcb
          exact hx
        have hic : i - a.leafCount - b.leafCount < c.leafCount := by
          show i - a.leaves.length - b.leaves.length < c.leaves.length
          omega
        obtain ⟨h1, h2⟩ := ihc (i - a.leafCount - b.leafCount) hic
        rcases hs : c.splitTree (i - a.leafCount - b.leafCount) with ⟨l, r⟩
        rw [hs] at h1 h2
        replace h1 : optLeaves l = c.leaves.take (i - a.leaves.length - b.leaves.length) := h1
        replace h2 : r.leaves = c.leaves.drop (i - a.leaves.length - b.leaves.length) := h2
        have hablen : (a.leaves ++ b.leaves).length ≤ i := by
          simp only [List.length_append]
          omega
        have hidx : i - (a.leaves ++ b.leaves).length
            = i - a.leaves.length - b.leaves.length := by
          simp only [List.length_append]
          omega
        have htk : (CQTree.node3 h a b c).leaves.take i
            = (a.leaves ++ b.leaves) ++ c.leaves.take (i - a.leaves.length - b.leaves.length) := by
          rw [hl3, List.take_append_eq_append_take]
          rw [List.take_of_length_le hablen, hidx]
        have hdr : (CQTree.node3 h a b c).leaves.drop i
            = c.leaves.drop (i - a.leaves.length - b.leaves.length) := by
          rw [hl3, List.drop_append_eq_append_drop]
          rw [List.drop_eq_nil_of_le hablen, hidx]
          simp
        rcases l with _ | l
        · refine ⟨?_, ?_⟩
          · show (CQTree.node2 h a b).leaves = _
            replace h1 : ([] : List (α × XQ))
                = c.leaves.take (i - a.leaves.length - b.leaves.length) := h1
            rw [htk, ← h1, List.append_nil]
            rfl
          · show r.leaves = _
            rw [hdr]; exact h2
        · refine ⟨?_, ?_⟩
          · show ((CQTree.node2 h a b).join l).leaves = _
            replace h1 : l.leaves
                = c.leaves.take (i - a.leaves.length - b.leaves.length) := h1
            rw [CQTree.join_leaves, htk, h1]
            rfl
          · show r.leaves = _
            rw [hdr]; exact h2

/-- `splitGo` cuts the leaf sequence into chunks of the recorded sizes. -/
theorem splitGo_leaves {α : Type} :
    ∀ (n : ℕ) (sizes : List ℕ) (t : CQTree α),
      (∀ s ∈ sizes, 1 ≤ s) → t.leafCount = sizes.sum →
      (splitGo t sizes n).map CQTree.leaves = chunksOf t.leaves sizes n := by
  intro n
  induction n with
  | zero =>
    intro sizes t _ _
    simp [splitGo, chunksOf]
  | succ n ih =>
    intro sizes t hpos hsum
    match sizes with
    | [] => simp [splitGo, chunksOf]
    | [s] => simp [splitGo, chunksOf]
    | s1 :: s2 :: rest =>
      rw [splitGo, chunksOf]
      have hne : (s1 :: s2 :: rest) ≠ [] := by simp
      have hdec : (s1 :: s2 :: rest).dropLast
          ++ [(s1 :: s2 :: rest).getLast hne] = s1 :: s2 :: rest :=
        List.dropLast_append_getLast hne
      have hsplitsum : (s1 :: s2 :: rest).dropLast.sum
          + (s1 :: s2 :: rest).getLast hne = (s1 :: s2 :: rest).sum := by
        conv_rhs => rw [← hdec]
        rw [List.sum_append]
        simp
      have hlast1 : 1 ≤ (s1 :: s2 :: rest).getLast hne :=
        hpos _ (List.getLast_mem hne)
      have hpre_pos : ∀ s ∈ (s1 :: s2 :: rest).dropLast, 1 ≤ s := by
        intro s hs
        exact hpos s (List.Sublist.subset (List.dropLast_sublist _) hs)
      have hpresum1 : 1 ≤ (s1 :: s2 :: rest).dropLast.sum := by
        have hmem : s1 ∈ (s1 :: s2 :: rest).dropLast := by
          rcases rest with _ | ⟨r1, rs⟩ <;> simp [List.dropLast]
        calc 1 ≤ s1 := hpre_pos s1 hmem
          _ ≤ (s1 :: s2 :: rest).dropLast.sum :=
            List.single_le_sum (fun x _ => Nat.zero_le x) _ hmem
      have hlt : (s1 :: s2 :: rest).dropLast.sum < t.leafCount := by
        rw [hsum]
        omega
      obtain ⟨H1, H2⟩ := CQTree.splitTree_leaves t ((s1 :: s2 :: rest).dropLast.sum) hlt
      rcases hsp : t.splitTree ((s1 :: s2 :: rest).dropLast.sum) with ⟨l, r⟩
      rw [hsp] at H1 H2
      rcases l with _ | l
      · exfalso
        replace H1 : ([] : List (α × XQ))
            = t.leaves.take ((s1 :: s2 :: rest).dropLast.sum) := H1
        have hlen0 : (t.leaves.take ((s1 :: s2 :: rest).dropLast.sum)).length = 0 := by
          rw [← H1]
          rfl
        rw [List.length_take] at hlen0
        simp only [CQTree.leafCount] at hlt
        omega
      · replace H1 : l.leaves = t.leaves.take ((s1 :: s2 :: rest).dropLast.sum) := H1
        replace H2 : r.leaves = t.leaves.drop ((s1 :: s2 :: rest).dropLast.sum) := H2
        rw [List.map_append]
        have hcnt : l.leafCount = (s1 :: s2 :: rest).dropLast.sum := by
          simp only [CQTree.leafCount, H1, List.length_take]
          simp only [CQTree.leafCount] at hlt
          omega
        rw [ih _ l hpre_pos hcnt, H1]
        simp [H2]

/-- Unfolding of `chunksOf` when at least two sizes remain. -/
theorem chunksOf_eq_of_two_le {β : Type} (xs : List β) (sizes : List ℕ) (n : ℕ)
    (h2 : 2 ≤ sizes.length) :
    chunksOf xs sizes (n + 1)
      = chunksOf (xs.take sizes.dropLast.sum) sizes.dropLast n
          ++ [xs.drop sizes.dropLast.sum] := by
  match sizes with
  | [] => simp at h2
  | [s] => simp at h2
  | s1 :: s2 :: rest => rw [chunksOf]

/-- Cutting a concatenation at the recorded lengths recovers the parts. -/
theorem chunksOf_concat {β : Type} :
    ∀ (ls : List (List β)), ls ≠ [] →
      chunksOf ls.flatten (ls.map List.length) (ls.map List.length).length = ls := by
  intro ls
  induction ls using List.reverseRecOn with
  | nil => intro hne; exact absurd rfl hne
  | append_singleton ls l ih =>
    intro _
    rcases ls with _ | ⟨x, xs⟩
    · simp [chunksOf]
    · have h2 : 2 ≤ ((x :: xs ++ [l]).map List.length).length := by
        simp
      have hlenfuel : ((x :: xs ++ [l]).map List.length).length
          = ((x :: xs).map List.length).length + 1 := by simp
      rw [hlenfuel, chunksOf_eq_of_two_le _ _ _ h2]
      have hdl : ((x :: xs ++ [l]).map List.length).dropLast
          = (x :: xs).map List.length := by
        have hsplit : (x :: xs ++ [l]).map List.length
            = ((x :: xs).map List.length) ++ [l.length] := by
          simp
        rw [hsplit, List.dropLast_concat]
      have hsum : ((x :: xs).map List.length).sum = (x :: xs).flatten.length := by
        rw [List.length_flatten]
      have hfl : (x :: xs ++ [l]).flatten = (x :: xs).flatten ++ l := by
        rw [List.flatten_append]
        simp
      rw [hdl, hsum, hfl, List.take_left, List.drop_left]
      rw [ih (by simp)]

/-- Leaves of a left fold of joins: concatenation in order. -/
theorem foldl_join_leaves {α : Type} :
    ∀ (ts : List (CQTree α)) (t : CQTree α),
      (ts.foldl CQTree.join t).leaves = t.leaves ++ (ts.map CQTree.leaves).flatten := by
  intro ts
  induction ts with
  | nil => intro t; simp
  | cons x xs ih =>
    intro t
    rw [List.foldl_cons, ih, CQTree.join_leaves]
    simp

/-- Mapping over the stored trees of queues that are all non-empty. -/
theorem map_getD_tree {α β : Type} (f : CQTree α → β) (dflt : β) :
    ∀ (qs : List (CQueue α)), (∀ q ∈ qs, q.tree ≠ none) →
      qs.map (fun q => (q.tree.map f).getD dflt)
        = (qs.filterMap (fun q => q.tree)).map f := by
  intro qs
  induction qs with
  | nil => intro _; simp
  | cons q rest ih =>
    intro hsome
    have hq := hsome q (by simp)
    rcases hqt : q.tree with _ | t
    · exact absurd hqt hq
    · rw [List.map_cons, List.filterMap_cons, hqt]
      simp only [Option.map_some, Option.getD_some]
      rw [ih (fun p hp => hsome p (by simp [hp]))]
      rfl

/-- Leaves of a queue expressed through its stored tree. -/
theorem leavesOfQueue_eq_getD {α : Type} (q : CQueue α) :
    leavesOfQueue q = (q.tree.map CQTree.leaves).getD [] := by
  rcases q with ⟨tr, ss⟩
  rcases tr with _ | t <;> simp [leavesOfQueue, optLeaves]

/-- C5: merging a list of non-empty concatenable queues into an empty queue
and then splitting reconstructs, in order, sub-queues holding exactly the
elements (with their priorities) held before the merge, and leaves the
merged queue empty. -/
theorem concatenable_queue_merge_split_round_trip {α : Type}
    (qs : List (CQueue α)) (hne : qs ≠ []) (hsome : ∀ q ∈ qs, q.tree ≠ none) :
    mergeSplitRoundTrip qs := by
  have hts : qs.filterMap (fun q => q.tree) ≠ [] := by
    rcases qs with _ | ⟨q, rest⟩
    · exact absurd rfl hne
    · have hq := hsome q (by simp)
      rcases hqt : q.tree with _ | t
      · exact absurd hqt hq
      · simp [List.filterMap_cons, hqt]
  rcases hts2 : qs.filterMap (fun q => q.tree) with _ | ⟨t0, trest⟩
  · exact absurd hts2 hts
  have hsizes : qs.map (fun q => (q.tree.map CQTree.leafCount).getD 0)
      = (t0 :: trest).map CQTree.leafCount := by
    rw [map_getD_tree _ _ qs hsome, hts2]
  have hqleaves : qs.map leavesOfQueue = (t0 :: trest).map CQTree.leaves := by
    have hfn : qs.map leavesOfQueue
        = qs.map (fun q => (q.tree.map CQTree.leaves).getD []) := by
      apply List.map_congr_left
      intro q _
      exact leavesOfQueue_eq_getD q
    rw [hfn, map_getD_tree _ _ qs hsome, hts2]
  have hmerge1 : (CQueue.merge qs).1
      = ⟨some (trest.foldl CQTree.join t0),
         (t0 :: trest).map CQTree.leafCount⟩ := by
    simp only [CQueue.merge, hts2, joinList, hsizes]
  have hTleaves : (trest.foldl CQTree.join t0).leaves
      = ((t0 :: trest).map CQTree.leaves).flatten := by
    rw [foldl_join_leaves]
    simp
  have hsum : (trest.foldl CQTree.join t0).leafCount
      = ((t0 :: trest).map CQTree.leafCount).sum := by
    have hmm : (t0 :: trest).map CQTree.leafCount
        = ((t0 :: trest).map CQTree.leaves).map List.length := by
      rw [List.map_map]
      rfl
    rw [CQTree.leafCount, hTleaves, List.length_flatten, hmm]
  have hsplit : (CQueue.merge qs).1.split
      = (⟨none, []⟩,
         splitGo (trest.foldl CQTree.join t0) ((t0 :: trest).map CQTree.leafCount)
           ((t0 :: trest).map CQTree.leafCount).length) := by
    rw [hmerge1]
    rfl
  unfold mergeSplitRoundTrip
  refine ⟨⟨?_, ?_⟩, ?_, ?_⟩
  · rw [hsplit]
  · rw [hsplit]
  · rw [hsplit]
    have hpos : ∀ s ∈ (t0 :: trest).map CQTree.leafCount, 1 ≤ s := by
      intro s hs
      rw [List.mem_map] at hs
      obtain ⟨t, _, rfl⟩ := hs
      have := CQTree.leaves_ne_nil t
      have hlp : 0 < t.leaves.length := List.length_pos.mpr this
      simpa [CQTree.leafCount] using hlp
    rw [splitGo_leaves ((t0 :: trest).map CQTree.leafCount).length _ _ hpos hsum]
    have hmm : (t0 :: trest).map CQTree.leafCount
        = ((t0 :: trest).map CQTree.leaves).map List.length := by
      rw [List.map_map]
      rfl
    rw [hTleaves, hmm, chunksOf_concat _ (by simp), hqleaves]
  · intro q hq
    simp only [CQueue.merge, List.mem_map] at hq
    obtain ⟨p, _, rfl⟩ := hq
    rfl

/-! ### Lemmas about list minima / maxima and claim C2 -/

/-- Seeded fold of `min` is below the seed. -/
theorem foldl_min_le_init : ∀ (l : List ℚ) (a : ℚ), l.foldl min a ≤ a := by
  intro l
  induction l with
  | nil => intro a; simp
  | cons x xs ih =>
    intro a
    calc (x :: xs).foldl min a = xs.foldl min (min a x) := rfl
      _ ≤ min a x := ih _
      _ ≤ a := min_le_left _ _

/-- Seeded fold of `min` is below every member. -/
theorem foldl_min_le_mem : ∀ (l : List ℚ) (a w : ℚ), w ∈ l → l.foldl min a ≤ w := by
  intro l
  induction l with
  | nil => intro a w hw; simp at hw
  | cons x xs ih =>
    intro a w hw
    rcases List.mem_cons.mp hw with rfl | hw
    · calc (w :: xs).foldl min a = xs.foldl min (min a w) := rfl
        _ ≤ min a w := foldl_min_le_init _ _
        _ ≤ w := min_le_right _ _
    · exact ih (min a x) w hw

/-- Seeded fold of `min` is the seed or a member. -/
theorem foldl_min_mem : ∀ (l : List ℚ) (a : ℚ), l.foldl min a = a ∨ l.foldl min a ∈ l := by
  intro l
  induction l with
  | nil => intro a; left; rfl
  | cons x xs ih =>
    intro a
    rcases ih (min a x) with heq | hmem
    · rcases min_choice a x with hc | hc
      · left
        calc (x :: xs).foldl min a = xs.foldl min (min a x) := rfl
          _ = min a x := heq
          _ = a := hc
      · right
        have : (x :: xs).foldl min a = x := by
          calc (x :: xs).foldl min a = xs.foldl min (min a x) := rfl
            _ = min a x := heq
            _ = x := hc
        simp [this]
    · right
      simp only [List.mem_cons]
      right
      exact hmem

/-- Seeded fold of `max` is above the seed. -/
theorem le_foldl_max_init : ∀ (l : List ℚ) (a : ℚ), a ≤ l.foldl max a := by
  intro l
  induction l with
  | nil => intro a; simp
  | cons x xs ih =>
    intro a
    calc a ≤ max a x := le_max_left _ _
      _ ≤ xs.foldl max (max a x) := ih _
      _ = (x :: xs).foldl max a := rfl

/-- Seeded fold of `max` is above every member. -/
theorem mem_le_foldl_max : ∀ (l : List ℚ) (a w : ℚ), w ∈ l → w ≤ l.foldl max a := by
  intro l
  induction l with
  | nil => intro a w hw; simp at hw
  | cons x xs ih =>
    intro a w hw
    rcases List.mem_cons.mp hw with rfl | hw
    · calc w ≤ max a w := le_max_right _ _
        _ ≤ xs.foldl max (max a w) := le_foldl_max_init _ _
        _ = (w :: xs).foldl max a := rfl
    · exact ih (max a x) w hw

/-- `listMinQ` is a lower bound of the list. -/
theorem listMinQ_le {ws : List ℚ} : ∀ w ∈ ws, listMinQ ws ≤ w := by
  intro w hw
  rcases ws with _ | ⟨a, rest⟩
  · simp at hw
  · rcases List.mem_cons.mp hw with rfl | hw
    · exact foldl_min_le_init _ _
    · exact foldl_min_le_mem _ _ _ hw

/-- `listMaxQ` is an upper bound of the list. -/
theorem le_listMaxQ {ws : List ℚ} : ∀ w ∈ ws, w ≤ listMaxQ ws := by
  intro w hw
  rcases ws with _ | ⟨a, rest⟩
  · simp at hw
  · rcases List.mem_cons.mp hw with rfl | hw
    · exact le_foldl_max_init _ _
    · exact mem_le_foldl_max _ _ _ hw

/-- `listMinQ` of a non-empty list is a member. -/
theorem listMinQ_mem {ws : List ℚ} (h : ws ≠ []) : listMinQ ws ∈ ws := by
  rcases ws with _ | ⟨a, rest⟩
  · exact absurd rfl h
  · rcases foldl_min_mem rest a with heq | hmem
    · simp [listMinQ, heq]
    · simp [listMinQ]
      right
      exact hmem

/-- Minimum of a non-empty list is at most its maximum. -/
theorem listMinQ_le_listMaxQ {ws : List ℚ} (h : ws ≠ []) :
    listMinQ ws ≤ listMaxQ ws := by
  have hm := listMinQ_mem h
  exact le_listMaxQ _ hm

/-- Folding `min` commutes with adding a constant to seed and elements. -/
theorem foldl_min_map_add : ∀ (l : List ℚ) (a d : ℚ),
    (l.map (fun w => w + d)).foldl min (a + d) = l.foldl min a + d := by
  intro l
  induction l with
  | nil => intro a d; rfl
  | cons x xs ih =>
    intro a d
    calc ((x :: xs).map (fun w => w + d)).foldl min (a + d)
        = (xs.map (fun w => w + d)).foldl min (min (a + d) (x + d)) := rfl
      _ = (xs.map (fun w => w + d)).foldl min (min a x + d) := by rw [min_add_add_right]
      _ = xs.foldl min (min a x) + d := ih _ _
      _ = (x :: xs).foldl min a + d := rfl

/-- `listMinQ` commutes with adding a constant to all elements of a
non-empty list. -/
theorem listMinQ_map_add (ws : List ℚ) (d : ℚ) (h : ws ≠ []) :
    listMinQ (ws.map (fun w => w + d)) = listMinQ ws + d := by
  rcases ws with _ | ⟨a, rest⟩
  · exact absurd rfl h
  · exact foldl_min_map_add rest a d

/-- Shifting by zero with an `int` delta is the identity. -/
theorem shiftEdge_zero (e : Edge) : shiftEdge 0 true e = e := by
  rcases e with ⟨x, y, w, wi⟩
  simp [shiftEdge]

/-- Mapping the zero shift is the identity. -/
theorem map_shiftEdge_zero (l : List Edge) : l.map (shiftEdge 0 true) = l := by
  induction l with
  | nil => rfl
  | cons e rest ih => simp [shiftEdge_zero, ih]

/-- Weights after a shift are the shifted weights. -/
theorem map_w_shiftEdge (l : List Edge) (delta : ℚ) (di : Bool) :
    (l.map (shiftEdge delta di)).map (fun e => e.w)
      = (l.map (fun e => e.w)).map (fun w => w + delta) := by
  induction l with
  | nil => rfl
  | cons e rest ih => simp [shiftEdge, ih]

/-- Core specification for claim C2: on a non-empty edge list the weight
adjustment adds one common non-negative constant to every weight, makes
all weights positive, and makes the minimum weight at least `num_vertex`
times the original weight range. -/
theorem adjust_core_spec (edges : List Edge) (hne : edges ≠ []) :
    ∃ delta : ℚ, ∃ di : Bool, 0 ≤ delta ∧
      adjust_core edges = edges.map (shiftEdge delta di) ∧
      (∀ e ∈ adjust_core edges, 0 < e.w) ∧
      (num_vertex_of edges : ℚ)
          * (listMaxQ (edges.map (fun e => e.w))
             - listMinQ (edges.map (fun e => e.w)))
        ≤ listMinQ ((adjust_core edges).map (fun e => e.w)) := by
  have hwne : edges.map (fun e => e.w) ≠ [] := by
    intro hcon
    rw [List.map_eq_nil_iff] at hcon
    exact hne hcon
  have hmM : listMinQ (edges.map (fun e => e.w))
      ≤ listMaxQ (edges.map (fun e => e.w)) := listMinQ_le_listMaxQ hwne
  have hn1 : (1 : ℚ) ≤ (num_vertex_of edges : ℚ) := by
    have h1 : 1 ≤ num_vertex_of edges := Nat.le_add_right 1 _
    exact_mod_cast h1
  have hwmem : ∀ e ∈ edges, listMinQ (edges.map (fun p => p.w)) ≤ e.w := by
    intro e he
    exact listMinQ_le _ (List.mem_map_of_mem _ he)
  have hstep1 : adjust_core edges
      = (if listMinQ (edges.map (fun e => e.w)) > 0 ∧
            listMinQ (edges.map (fun e => e.w))
              ≥ (num_vertex_of edges : ℚ)
                  * (listMaxQ (edges.map (fun e => e.w))
                     - listMinQ (edges.map (fun e => e.w))) then
          edges
        else
          edges.map
            (shiftEdge
              (if listMaxQ (edges.map (fun e => e.w))
                  - listMinQ (edges.map (fun e => e.w)) > 0 then
                (num_vertex_of edges : ℚ)
                    * (listMaxQ (edges.map (fun e => e.w))
                       - listMinQ (edges.map (fun e => e.w)))
                  - listMinQ (edges.map (fun e => e.w))
              else 1 - listMinQ (edges.map (fun e => e.w)))
              (edges.all (fun e => e.wInt)))) := by
    unfold adjust_core
    rw [if_neg]
    simp [List.isEmpty_iff, hne]
  by_cases hg : listMinQ (edges.map (fun e => e.w)) > 0 ∧
      listMinQ (edges.map (fun e => e.w))
        ≥ (num_vertex_of edges : ℚ)
            * (listMaxQ (edges.map (fun e => e.w))
               - listMinQ (edges.map (fun e => e.w)))
  · refine ⟨0, true, le_refl 0, ?_, ?_, ?_⟩
    · rw [hstep1, if_pos hg, map_shiftEdge_zero]
    · intro e he
      rw [hstep1, if_pos hg] at he
      exact lt_of_lt_of_le hg.1 (hwmem e he)
    · rw [hstep1, if_pos hg]
      exact hg.2
  · by_cases hr : listMaxQ (edges.map (fun e => e.w))
        - listMinQ (edges.map (fun e => e.w)) > 0
    · refine ⟨(num_vertex_of edges : ℚ)
          * (listMaxQ (edges.map (fun e => e.w))
             - listMinQ (edges.map (fun e => e.w)))
          - listMinQ (edges.map (fun e => e.w)),
        edges.all (fun e => e.wInt), ?_, ?_, ?_, ?_⟩
      · rcases not_and_or.mp hg with hm0 | hlt
        · push_neg at hm0
          have hnr : listMaxQ (edges.map (fun e => e.w))
              - listMinQ (edges.map (fun e => e.w))
              ≤ (num_vertex_of edges : ℚ)
                  * (listMaxQ (edges.map (fun e => e.w))
                     - listMinQ (edges.map (fun e => e.w))) :=
            le_mul_of_one_le_left (le_of_lt hr) hn1
          linarith
        · push_neg at hlt
          linarith
      · rw [hstep1, if_neg hg, if_pos hr]
      · intro e he
        rw [hstep1, if_neg hg, if_pos hr] at he
        rw [List.mem_map] at he
        obtain ⟨p, hp, rfl⟩ := he
        have hple := hwmem p hp
        have hnr : listMaxQ (edges.map (fun e => e.w))
            - listMinQ (edges.map (fun e => e.w))
            ≤ (num_vertex_of edges : ℚ)
                * (listMaxQ (edges.map (fun e => e.w))
                   - listMinQ (edges.map (fun e => e.w))) :=
          le_mul_of_one_le_left (le_of_lt hr) hn1
        show 0 < p.w + _
        linarith
      · rw [hstep1, if_neg hg, if_pos hr, map_w_shiftEdge,
          listMinQ_map_add _ _ hwne]
        linarith
    · have hr0 : listMaxQ (edges.map (fun e => e.w))
          - listMinQ (edges.map (fun e => e.w)) = 0 := by
        linarith
      have hm0 : listMinQ (edges.map (fun e => e.w)) ≤ 0 := by
        by_contra hcon
        push_neg at hcon
        exact hg ⟨hcon, by rw [hr0, mul_zero]; linarith⟩
      refine ⟨1 - listMinQ (edges.map (fun e => e.w)),
        edges.all (fun e => e.wInt), by linarith, ?_, ?_, ?_⟩
      · rw [hstep1, if_neg hg, if_neg hr]
      · intro e he
        rw [hstep1, if_neg hg, if_neg hr] at he
        rw [List.mem_map] at he
        obtain ⟨p, hp, rfl⟩ := he
        have hple := hwmem p hp
        show 0 < p.w + _
        linarith
      · rw [hstep1, if_neg hg, if_neg hr, map_w_shiftEdge,
          listMinQ_map_add _ _ hwne, hr0, mul_zero]
        linarith

/-- C2: for every well-formed input, `adjust_weights_for_maximum_cardinality_matching`
never fails, returns an empty input unchanged, and on non-empty input
returns the edges with every weight increased by one common non-negative
constant such that all adjusted weights are positive and the minimum
adjusted weight is at least `num_vertex` times the difference between the
maximum and minimum original weight. -/
theorem adjust_weights_for_max_cardinality_spec (pel : List PyElem)
    (hchk : _check_input_types pel = .ok ()) : adjustRoundTrip pel := by
  have heq : adjust_weights_for_maximum_cardinality_matching pel
      = .ok (adjust_core (toEdges pel)) := by
    unfold adjust_weights_for_maximum_cardinality_matching
    rw [hchk]
    rfl
  refine ⟨adjust_core (toEdges pel), heq, ?_, ?_⟩
  · intro hpel
    subst hpel
    rfl
  · intro hne
    exact adjust_core_spec _ hne

/-- Witness for C2 at a concrete input. -/
theorem adjust_weights_for_max_cardinality_spec_witness : adjustRoundTrip pelC2 :=
  adjust_weights_for_max_cardinality_spec pelC2 (by rfl)

/-! ### Characterisation of the input checks -/

/-- `pairLe` is total. -/
theorem pairLe_total (a b : ℕ × ℕ) : (pairLe a b || pairLe b a) = true := by
  simp only [pairLe, Bool.or_eq_true, decide_eq_true_eq, Bool.and_eq_true, beq_iff_eq]
  omega

/-- `pairLe` is transitive. -/
theorem pairLe_trans (a b c : ℕ × ℕ) (hab : pairLe a b = true)
    (hbc : pairLe b c = true) : pairLe a c = true := by
  simp only [pairLe, Bool.or_eq_true, decide_eq_true_eq, Bool.and_eq_true,
    beq_iff_eq] at hab hbc ⊢
  omega

/-- `pairLe` is antisymmetric. -/
theorem pairLe_antisymm (a b : ℕ × ℕ) (hab : pairLe a b = true)
    (hba : pairLe b a = true) : a = b := by
  simp only [pairLe, Bool.or_eq_true, decide_eq_true_eq, Bool.and_eq_true,
    beq_iff_eq] at hab hba
  have h1 : a.1 = b.1 := by omega
  have h2 : a.2 = b.2 := by omega
  exact Prod.ext h1 h2

/-- The adjacent-duplicate scan succeeds exactly on locally injective lists. -/
theorem adjacentEq_eq_false_iff {l : List (ℕ × ℕ)} :
    adjacentEq l = false ↔ l.Chain' (fun a b => a ≠ b) := by
  induction l with
  | nil => simp [adjacentEq]
  | cons a rest ih =>
    rcases rest with _ | ⟨b, rest⟩
    · simp [adjacentEq]
    · rw [adjacentEq, List.chain'_cons]
      rw [Bool.or_eq_false_iff]
      rw [ih]
      simp [beq_iff_eq]

/-- Combining two adjacency chains. -/
theorem chain'_and {α : Type} {R S : α → α → Prop} :
    ∀ {l : List α}, l.Chain' R → l.Chain' S
      → l.Chain' (fun a b => R a b ∧ S a b) := by
  intro l
  induction l with
  | nil => intro _ _; exact List.chain'_nil
  | cons a rest ih =>
    rcases rest with _ | ⟨b, rest⟩
    · intro _ _; simp
    · intro hR hS
      rw [List.chain'_cons] at hR hS ⊢
      exact ⟨⟨hR.1, hS.1⟩, ih hR.2 hS.2⟩

/-- Adjacent-duplicate detection on the sorted copy decides duplicate
membership in the original list. -/
theorem adjacentEq_sortPairs_iff (l : List (ℕ × ℕ)) :
    adjacentEq (sortPairs l) = false ↔ l.Nodup := by
  have hperm : (sortPairs l).Perm l := List.perm_insertionSort pairLeP l
  have hsorted : (sortPairs l).Pairwise pairLeP :=
    List.sorted_insertionSort pairLeP l
  constructor
  · intro hadj
    rw [adjacentEq_eq_false_iff] at hadj
    have hchain_le : (sortPairs l).Chain' (fun a b => pairLe a b = true) :=
      hsorted.chain'
    have hchain_lt : (sortPairs l).Chain'
        (fun a b => pairLe a b = true ∧ a ≠ b) := chain'_and hchain_le hadj
    haveI : IsTrans (ℕ × ℕ) (fun a b => pairLe a b = true ∧ a ≠ b) := by
      refine ⟨fun a b c hab hbc => ⟨pairLe_trans a b c hab.1 hbc.1, ?_⟩⟩
      intro hac
      subst hac
      exact hbc.2 (pairLe_antisymm b a hbc.1 hab.1)
    rw [List.chain'_iff_pairwise] at hchain_lt
    have hnd : (sortPairs l).Nodup := hchain_lt.imp (fun h => h.2)
    exact hperm.nodup_iff.mp hnd
  · intro hnd
    have hnd2 : (sortPairs l).Nodup := hperm.nodup_iff.mpr hnd
    rw [adjacentEq_eq_false_iff]
    exact hnd2.chain'

/-- `_check_input_graph` succeeds exactly in the absence of self-edges and
duplicate undirected edges, and otherwise reports a `ValueError`. -/
theorem check_input_graph_iff (edges : List Edge) :
    (_check_input_graph edges = .ok ()
        ↔ (∀ e ∈ edges, e.x ≠ e.y) ∧ (edges.map normPair).Nodup)
      ∧ (_check_input_graph edges = .ok ()
          ∨ _check_input_graph edges = .error .valueErr) := by
  unfold _check_input_graph
  by_cases hself : edges.any (fun e => e.x == e.y) = true
  · rw [if_pos hself]
    constructor
    · constructor
      · intro hcon; exact absurd hcon (by simp)
      · intro ⟨hno, _⟩
        rw [List.any_eq_true] at hself
        obtain ⟨e, he, hxy⟩ := hself
        rw [beq_iff_eq] at hxy
        exact absurd hxy (hno e he)
    · right; rfl
  · rw [if_neg hself]
    have hnoself : ∀ e ∈ edges, e.x ≠ e.y := by
      intro e he hxy
      apply hself
      rw [List.any_eq_true]
      exact ⟨e, he, by rw [beq_iff_eq]; exact hxy⟩
    by_cases hadj : adjacentEq (sortPairs (edges.map normPair)) = true
    · rw [if_pos hadj]
      constructor
      · constructor
        · intro hcon; exact absurd hcon (by simp)
        · intro ⟨_, hnd⟩
          rw [← adjacentEq_sortPairs_iff] at hnd
          rw [hnd] at hadj
          exact absurd hadj (by simp)
      · right; rfl
    · rw [if_neg hadj]
      have hfalse : adjacentEq (sortPairs (edges.map normPair)) = false :=
        Bool.eq_false_iff.mpr hadj
      constructor
      · constructor
        · intro _
          exact ⟨hnoself, (adjacentEq_sortPairs_iff _).mp hfalse⟩
        · intro _; rfl
      · left; rfl

/-- Unique representatives under an injective-on-duplicates map. -/
theorem nodup_map_eq_of_eq {α β : Type} {f : α → β} :
    ∀ {l : List α}, (l.map f).Nodup →
      ∀ a ∈ l, ∀ b ∈ l, f a = f b → a = b := by
  intro l
  induction l with
  | nil => intro _ a ha; simp at ha
  | cons x xs ih =>
    intro hnd a ha b hb hfab
    rw [List.map_cons, List.nodup_cons] at hnd
    rcases List.mem_cons.mp ha with rfl | ha2
    · rcases List.mem_cons.mp hb with rfl | hb2
      · rfl
      · exfalso
        apply hnd.1
        rw [hfab]
        exact List.mem_map_of_mem f hb2
    · rcases List.mem_cons.mp hb with rfl | hb2
      · exfalso
        apply hnd.1
        rw [← hfab]
        exact List.mem_map_of_mem f ha2
      · exact ih hnd.2 a ha2 b hb2 hfab

/-- C3 (corrected): `calc_dual_delta_step` returns the smallest of the
candidate delta values, but a tie between delta types is broken in favor
of the larger (later evaluated) type — delta3 over delta2 and delta4 over
delta3 — because the source compares with `<=`; the claim states the
opposite preference.  The returned type and value equal `pickLastMin` of
the candidate list, which picks the smallest value and on ties the largest
type. -/
theorem calc_dual_delta_step_eq_pickLastMin (st : MC) :
    (st.calc_dual_delta_step.1.1, st.calc_dual_delta_step.1.2.1)
      = pickLastMin st.deltaCandidates := by
  simp only [MC.calc_dual_delta_step, MC.deltaCandidates, pickLastMin]
  by_cases h2 : st.delta2_get_min_edge.1 = -1 <;>
  by_cases h3 : st.delta3_get_min_edge.1.1 = -1 <;>
  by_cases h4 : st.delta3_get_min_edge.2.delta4_queue.empty = true <;>
    simp only [h2, h3, h4, ne_eq, not_true_eq_false, not_false_eq_true, if_true, if_false,
      ite_true, ite_false, Bool.not_true, Bool.not_false, List.append_nil, List.nil_append,
      List.foldl_append, List.foldl_cons, List.foldl_nil, false_and, true_and, and_true,
      if_neg, apply_ite (Prod.snd : ℕ × XQ → XQ), apply_ite (Prod.fst : ℕ × XQ → ℕ)] <;>
    split_ifs <;> simp_all

/-- C3, counterexample to the stated tie-break direction: in the run on the
equal-weight path `pelC3`, the substage after the first augmentation
reaches a state where the delta2 candidate (edge 1) and the delta3
candidate (edge 2) both have value 0, yet `calc_dual_delta_step` selects
delta type 3, not the claimed delta type 2.  The final conjunct shows the
run in which this state occurs completes normally. -/
theorem calc_dual_delta_step_tie_counterexample :
    ctxC3.delta2_get_min_edge.1 = 1
      ∧ ctxC3.delta2_get_min_edge.2 = XQ.fin 0
      ∧ ctxC3.delta3_get_min_edge.1.1 = 2
      ∧ ctxC3.delta3_get_min_edge.1.2 = XQ.fin 0
      ∧ ctxC3.calc_dual_delta_step.1.1 = 3
      ∧ maximum_weight_matching pelC3 = .ok [(0,1),(2,3)] := by
  refine ⟨?_, ?_, ?_, ?_, ?_, ?_⟩ <;> with_unfolding_all rfl

/-! ### Frame lemmas: operations of a stage and `vertex_mate` (claim C4) -/

/-- The per-element check agrees with the per-element classification. -/
theorem elemCheck_eq_spec (e : PyElem) :
    elemCheck e = (match elemErrSpec e with
      | some er => .error er
      | none => .ok ()) := by
  rcases e with ⟨x, y, w⟩ | _
  · rcases x with xi | xf | _ <;> rcases y with yi | yf | _ <;>
      rcases w with wi | wf | _ <;> try rcases wf with q | _
    all_goals simp only [elemCheck, elemErrSpec]
    all_goals split_ifs <;> rfl
  · rfl

/-- `_check_input_types` returns exactly the first per-element error. -/
theorem check_input_types_eq_spec : ∀ (pel : List PyElem),
    _check_input_types pel = (match pel.findSome? elemErrSpec with
      | some er => .error er
      | none => .ok ()) := by
  intro pel
  induction pel with
  | nil => rfl
  | cons e rest ih =>
    rw [List.findSome?_cons]
    simp only [_check_input_types]
    rcases hs : elemErrSpec e with _ | er
    · have hc : elemCheck e = .ok () := by rw [elemCheck_eq_spec, hs]
      rw [hc]
      simpa using ih
    · have hc : elemCheck e = .error er := by rw [elemCheck_eq_spec, hs]
      rw [hc]
      rfl

/-- A monadic fold whose body only throws `matchingErr` only throws
`matchingErr`. -/
theorem foldlM_err {α β : Type} (f : β → α → Except PyError β)
    (hf : ∀ (b : β) (a : α) (e : PyError), f b a = .error e → e = .matchingErr) :
    ∀ (l : List α) (init : β) (e : PyError),
      l.foldlM f init = .error e → e = .matchingErr := by
  intro l
  induction l with
  | nil =>
    intro init e h
    replace h : (Except.ok init : Except PyError β) = .error e := h
    exact absurd h (by simp)
  | cons a l ih =>
    intro init e h
    rw [List.foldlM_cons] at h
    rcases hf0 : f init a with e0 | b
    · rw [hf0] at h
      replace h : (Except.error e0 : Except PyError β) = .error e := h
      cases h
      exact hf init a e hf0
    · rw [hf0] at h
      replace h : l.foldlM f b = .error e := h
      exact ih b e h

/-- `_verify_blossom_edges` only throws `MatchingError`. -/
theorem verifyBlossomGo_err (st : MC) : ∀ (fuel : ℕ) (stack : List (ℕ × ℤ))
    (vd : List ℕ) (psd : List ℚ) (pnm : List ℕ) (sl : List ℚ) (e : PyError),
    verifyBlossomGo st fuel stack vd psd pnm sl = .error e → e = .matchingErr := by
  intro fuel
  induction fuel with
  | zero =>
    intro stack vd psd pnm sl e h
    exact absurd h (by simp [verifyBlossomGo])
  | succ n ih =>
    intro stack vd psd pnm sl e h
    simp only [verifyBlossomGo] at h
    split at h
    · exact absurd h (by simp)
    · split_ifs at h <;>
        first
        | exact ih _ _ _ _ _ _ h
        | (replace h : (Except.error PyError.matchingErr : Except PyError (List ℚ))
              = .error e := h
           cases h
           rfl)

/-- Reduction of `pure >>= f` in the `Except` monad. -/
theorem exceptPureBind {α β : Type} (a : α) (f : α → Except PyError β) :
    ((pure a : Except PyError α) >>= f) = f a := rfl

/-- Reduction of `throw >>= f` in the `Except` monad. -/
theorem exceptThrowBind {α β : Type} (f : α → Except PyError β) :
    ((throw PyError.matchingErr : Except PyError α) >>= f)
      = Except.error PyError.matchingErr := rfl

/-- Error classification through a bind in the `Except` monad. -/
theorem bind_error_elim {α β : Type} {m : Except PyError α}
    {f : α → Except PyError β} {e : PyError}
    (h : (m >>= f) = .error e)
    (hm : ∀ e1, m = .error e1 → e1 = .matchingErr)
    (hf : ∀ (a : α) (e1 : PyError), f a = .error e1 → e1 = .matchingErr) :
    e = .matchingErr := by
  rcases hm0 : m with e0 | a
  · rw [hm0] at h
    replace h : (Except.error e0 : Except PyError β) = .error e := h
    cases h
    exact hm _ hm0
  · rw [hm0] at h
    replace h : f a = .error e := h
    exact hf a e h

set_option maxHeartbeats 2000000 in
/-- `verify_optimum` only throws `MatchingError`. -/
theorem verify_optimum_err (st : MC) (e : PyError)
    (h : st.verify_optimum = .error e) : e = .matchingErr := by
  simp only [MC.verify_optimum] at h
  refine bind_error_elim h ?_ ?_
  · intro e1 h1
    refine foldlM_err _ ?_ _ _ _ h1
    intro b a e2 hba
    split_ifs at hba
    · replace hba : (Except.error PyError.matchingErr : Except PyError ℕ)
          = .error e2 := hba
      cases hba
      rfl
    · exact absurd hba (by simp [pure, Except.pure])
    · exact absurd hba (by simp [pure, Except.pure])
  · intro nmv e1 h1
    split_ifs at h1 <;>
      try simp only [exceptPureBind, exceptThrowBind] at h1
    all_goals first
    | (replace h1 : (Except.error PyError.matchingErr : Except PyError Unit)
          = .error e1 := h1
       cases h1
       rfl)
    | (refine bind_error_elim h1 ?_ ?_
       · intro e6 h6
         refine foldlM_err _ ?_ _ _ _ h6
         intro sl b e7 hb
         split_ifs at hb
         · exact verifyBlossomGo_err st _ _ _ _ _ _ _ hb
         · exact absurd hb (by simp [pure, Except.pure])
       · intro sl e6 h6
         split_ifs at h6 <;> try simp only [exceptPureBind, exceptThrowBind] at h6
         all_goals first
         | (replace h6 : (Except.error PyError.matchingErr : Except PyError Unit)
              = .error e6 := h6
            cases h6
            rfl)
         | (exact absurd h6 (by simp [pure, Except.pure])))

/-- Reduction of `error >>= f` in the `Except` monad. -/
theorem exceptErrBind {α β : Type} (e : PyError) (f : α → Except PyError β) :
    ((Except.error e : Except PyError α) >>= f) = Except.error e := rfl

/-- Reduction of `ok >>= f` in the `Except` monad. -/
theorem exceptOkBind {α β : Type} (a : α) (f : α → Except PyError β) :
    ((Except.ok a : Except PyError α) >>= f) = f a := rfl

/-- The boolean self-edge scan agrees with its logical reading. -/
theorem selfEdgeBool_iff (edges : List Edge) :
    edges.any (fun ed => ed.x == ed.y) = false ↔ (∀ ed ∈ edges, ed.x ≠ ed.y) := by
  rw [← Bool.not_eq_true, List.any_eq_true]
  simp

/-- C6 (corrected): `maximum_weight_matching` reports exactly the FIRST
input error — elements are checked left to right (shape, endpoint types,
endpoint signs, weight type, finiteness, magnitude, in that order), then
self-edges, then duplicate edges — and when no input check fails, no
`TypeError` or `ValueError` is ever produced (the residual `verify_optimum`
check can only raise `MatchingError`), so input errors are decided before
any algorithmic state is built.  The claim's unconditional per-condition
classification is refuted when two offending conditions occur in one
input: only the first detected one is reported. -/
theorem mwm_first_input_error (pel : List PyElem) :
    (∀ e, firstInputError pel = some e → maximum_weight_matching pel = .error e)
      ∧ (firstInputError pel = none →
          ∀ e, maximum_weight_matching pel = .error e → e = .matchingErr) := by
  rcases hfs : pel.findSome? elemErrSpec with _ | er
  case some =>
    constructor
    · intro e he
      simp only [firstInputError, hfs] at he
      replace he : some er = some e := he
      cases he
      simp only [maximum_weight_matching, check_input_types_eq_spec, hfs,
        exceptErrBind]
    · intro hn
      simp only [firstInputError, hfs] at hn
      exact absurd hn (by simp)
  case none =>
    have hty : _check_input_types pel = .ok () := by
      rw [check_input_types_eq_spec, hfs]
    rcases (check_input_graph_iff (toEdges pel)).2 with hg | hg
    · have hcond := (check_input_graph_iff (toEdges pel)).1.mp hg
      have hself : (toEdges pel).any (fun ed => ed.x == ed.y) = false :=
        (selfEdgeBool_iff _).mpr hcond.1
      have hfe : firstInputError pel = none := by
        simp [firstInputError, hfs, hself, hcond.2]
      constructor
      · intro e he
        rw [hfe] at he
        exact absurd he (by simp)
      · intro _ e he
        simp only [maximum_weight_matching, hty, exceptOkBind, hg] at he
        split_ifs at he
        · exact absurd he (by simp [pure, Except.pure])
        · refine bind_error_elim he (fun e1 h1 => verify_optimum_err _ _ h1)
            (fun a e1 h1 => absurd h1 (by simp [pure, Except.pure]))
        · exact absurd he (by simp [pure, Except.pure])
    · have hnotok : _check_input_graph (toEdges pel) ≠ .ok () := by
        simp [hg]
      have hfe : firstInputError pel = some .valueErr := by
        simp only [firstInputError, hfs]
        rcases hsb : (toEdges pel).any (fun ed => ed.x == ed.y) with _ | _
        · have hnoself := (selfEdgeBool_iff _).mp hsb
          by_cases hnd : ((toEdges pel).map normPair).Nodup
          · exact absurd
              ((check_input_graph_iff (toEdges pel)).1.mpr ⟨hnoself, hnd⟩) hnotok
          · simp [hsb, hnd]
        · simp [hsb]
      constructor
      · intro e he
        rw [hfe] at he
        replace he : some PyError.valueErr = some e := he
        cases he
        simp only [maximum_weight_matching, hty, exceptOkBind, hg, exceptErrBind]
      · intro hn
        rw [hfe] at hn
        exact absurd hn (by simp)

/-- C6, counterexample: `pelC6` contains an element that is not a 3-tuple,
for which the claim demands a `TypeError`, yet the result is the
`ValueError` of the earlier non-finite weight. -/
theorem mwm_error_class_counterexample :
    PyElem.notTup3 ∈ pelC6
      ∧ maximum_weight_matching pelC6 = .error .valueErr := by
  constructor
  · simp [pelC6]
  · with_unfolding_all rfl

/-- Witness for C6: the corrected theorem applied to the self-edge input. -/
theorem mwm_first_input_error_witness :
    firstInputError pelC6w = some PyError.valueErr
      ∧ maximum_weight_matching pelC6w = .error .valueErr := by
  have h : firstInputError pelC6w = some PyError.valueErr := by
    with_unfolding_all rfl
  exact ⟨h, (mwm_first_input_error pelC6w).1 _ h⟩

/-! ### Negative and zero weight edges, determinism (claims C7, C8, C10) -/

/-- Success of a bind in the `Except` monad factors through both parts. -/
theorem bind_ok_elim {α β : Type} {m : Except PyError α}
    {f : α → Except PyError β} {b : β} (h : (m >>= f) = .ok b) :
    ∃ a, m = .ok a ∧ f a = .ok b := by
  rcases hm : m with e | a
  · rw [hm] at h
    replace h : (Except.error e : Except PyError β) = .ok b := h
    exact absurd h (by simp)
  · rw [hm] at h
    replace h : f a = .ok b := h
    exact ⟨a, rfl, h⟩

/-- Injectivity of a successful `pure`. -/
theorem exceptPureOk {α : Type} {a b : α}
    (h : (pure a : Except PyError α) = .ok b) : a = b := Except.ok.inj h

/-- Every edge surviving `_remove_negative_weight_edges` is an input edge
of non-negative weight. -/
theorem mem_remove_negative {l : List Edge} {ed : Edge}
    (h : ed ∈ _remove_negative_weight_edges l) : ed ∈ l ∧ 0 ≤ ed.w := by
  unfold _remove_negative_weight_edges at h
  split_ifs at h with hany
  · rw [List.mem_filter] at h
    refine ⟨h.1, by simpa using h.2⟩
  · refine ⟨h, ?_⟩
    by_contra hneg
    apply hany
    rw [List.any_eq_true]
    exact ⟨ed, h, by simpa using lt_of_not_le hneg⟩

/-- C7: no returned pair corresponds to an input edge of negative weight
(negative edges are dropped before the algorithm runs, and duplicate
rejection makes the correspondence unique); in particular the single
negative edge `pelC7` yields the empty matching. -/
theorem mwm_negative_edges_never_matched (pel : List PyElem)
    (pairs : List (ℕ × ℕ)) (hok : maximum_weight_matching pel = .ok pairs) :
    (∀ p ∈ pairs, ∀ ed ∈ toEdges pel, ed.x = p.1 → ed.y = p.2 → 0 ≤ ed.w)
      ∧ maximum_weight_matching pelC7 = .ok [] := by
  refine ⟨?_, by with_unfolding_all rfl⟩
  rcases hty : _check_input_types pel with e | u
  · rw [show maximum_weight_matching pel
        = Except.error e from by
      simp only [maximum_weight_matching, hty, exceptErrBind]] at hok
    exact absurd hok (by simp)
  · cases u
    rcases hgr : _check_input_graph (toEdges pel) with e | u
    · rw [show maximum_weight_matching pel = Except.error e from by
        simp only [maximum_weight_matching, hty, hgr, exceptOkBind,
          exceptErrBind]] at hok
      exact absurd hok (by simp)
    · cases u
      have hnd : ((toEdges pel).map normPair).Nodup :=
        ((check_input_graph_iff (toEdges pel)).1.mp hgr).2
      simp only [maximum_weight_matching, hty, hgr, exceptOkBind] at hok
      split_ifs at hok with hemp hint
      · have hpe : ([] : List (ℕ × ℕ)) = pairs := exceptPureOk hok
        intro p hp
        rw [← hpe] at hp
        exact absurd hp (by simp)
      · have hP :
            ∀ p ∈ pairs, ∃ ed, ed ∈ _remove_negative_weight_edges (toEdges pel)
              ∧ p = (ed.x, ed.y) := by
          obtain ⟨u2, _, hfu⟩ := bind_ok_elim hok
          have hv := exceptPureOk hfu
          intro p hp
          rw [← hv] at hp
          rw [List.mem_filterMap] at hp
          obtain ⟨ed, hed, hpe⟩ := hp
          try simp only at hpe
          split at hpe <;>
            first
            | exact ⟨ed, hed, (Option.some.inj hpe).symm⟩
            | exact absurd hpe (by simp)
        intro p hp ed2 hed2 hx hy
        obtain ⟨ed, hed, hpe⟩ := hP p hp
        obtain ⟨hmem, hw⟩ := mem_remove_negative hed
        have hnp : normPair ed2 = normPair ed := by
          subst hpe
          simp only [normPair, hx, hy]
        have : ed2 = ed := nodup_map_eq_of_eq hnd ed2 hed2 ed hmem hnp
        rw [this]
        exact hw
      · have hP :
            ∀ p ∈ pairs, ∃ ed, ed ∈ _remove_negative_weight_edges (toEdges pel)
              ∧ p = (ed.x, ed.y) := by
          have hv := exceptPureOk hok
          intro p hp
          rw [← hv] at hp
          rw [List.mem_filterMap] at hp
          obtain ⟨ed, hed, hpe⟩ := hp
          try simp only at hpe
          split at hpe <;>
            first
            | exact ⟨ed, hed, (Option.some.inj hpe).symm⟩
            | exact absurd hpe (by simp)
        intro p hp ed2 hed2 hx hy
        obtain ⟨ed, hed, hpe⟩ := hP p hp
        obtain ⟨hmem, hw⟩ := mem_remove_negative hed
        have hnp : normPair ed2 = normPair ed := by
          subst hpe
          simp only [normPair, hx, hy]
        have : ed2 = ed := nodup_map_eq_of_eq hnd ed2 hed2 ed hmem hnp
        rw [this]
        exact hw

/-- Witness for C7: the theorem applied to the `pelC7` run itself. -/
theorem mwm_negative_edges_never_matched_witness :
    maximum_weight_matching pelC7 = .ok []
      ∧ ((∀ p ∈ ([] : List (ℕ × ℕ)), ∀ ed ∈ toEdges pelC7,
            ed.x = p.1 → ed.y = p.2 → 0 ≤ ed.w)
          ∧ maximum_weight_matching pelC7 = .ok []) := by
  have h : maximum_weight_matching pelC7 = .ok [] := by with_unfolding_all rfl
  exact ⟨h, mwm_negative_edges_never_matched pelC7 [] h⟩

/-- C10: an edge of weight exactly `0` survives the negative-weight
preprocessing (only strictly negative weights are dropped), and on the
single zero-weight edge `pelC10` the returned matching is `[(0, 1)]`,
not the equally weighted empty matching. -/
theorem zero_weight_edge_kept_and_matched (l : List Edge) (ed : Edge)
    (hed : ed ∈ l) (hw : 0 ≤ ed.w) :
    ed ∈ _remove_negative_weight_edges l
      ∧ maximum_weight_matching pelC10 = .ok [(0,1)] := by
  constructor
  · unfold _remove_negative_weight_edges
    split_ifs with hany
    · rw [List.mem_filter]
      exact ⟨hed, by simpa using hw⟩
    · exact hed
  · with_unfolding_all rfl

/-- Witness for C10: the zero-weight edge of `pelC10` itself. -/
theorem zero_weight_edge_kept_and_matched_witness :
    (⟨0, 1, 0, true⟩ : Edge) ∈ toEdges pelC10
      ∧ 0 ≤ (⟨0, 1, 0, true⟩ : Edge).w
      ∧ ((⟨0, 1, 0, true⟩ : Edge) ∈ _remove_negative_weight_edges (toEdges pelC10)
          ∧ maximum_weight_matching pelC10 = .ok [(0,1)]) := by
  have h1 : (⟨0, 1, 0, true⟩ : Edge) ∈ toEdges pelC10 := by
    with_unfolding_all decide
  have h2 : 0 ≤ (⟨0, 1, 0, true⟩ : Edge).w := by with_unfolding_all decide
  exact ⟨h1, h2, zero_weight_edge_kept_and_matched (toEdges pelC10) _ h1 h2⟩

/-- Witness for C5: the round trip on the two concrete queues. -/
theorem concatenable_queue_merge_split_round_trip_witness :
    mergeSplitRoundTrip qsC5 :=
  concatenable_queue_merge_split_round_trip qsC5 (by simp [qsC5])
    (by simp [qsC5])
